import Mathlib

/-!
Verification of the schema-reconciling concatenation engine of
`cprices/utils/spark_helpers.py` (function `concat` and its helpers
`_ensure_consistent_schema`, `_compare_schemas`, `_get_column_types`,
`_are_all_number_types`, `_get_largest_number_dtype`, constant
`SPARK_NUMBER_TYPES`).

Modelling notes.

* A Spark DataFrame is modelled as a `Frame`: an ordered list of
  `(column name, dtype)` pairs together with rows of opaque values.
  Spark dtypes are the simple-string dtypes returned by `DataFrame.dtypes`
  (for example "int", "double", "string", "boolean", "date").

* `Column.cast` is modelled by `castVal`: casting `null` to any dtype
  yields `null`; casting a value to its own dtype is the identity
  (a no-op cast); casting to a different dtype produces an opaque
  `casted` value recording the target dtype.

* The Python code collects the union of the per-frame `(name, dtype)`
  pairs in a `set` (`col_schemas`), and `_ensure_consistent_schema`
  iterates over `column_schemas - set(frame.dtypes)`.  CPython's set
  iteration order over strings is unspecified (hash randomised), so the
  embedding takes the iteration order as an explicit parameter
  `order : List (String × String)`; `IsSetOrder order frames` says that
  `order` is some duplicate-free enumeration of exactly the pairs
  observed across the input frames.  Set differences are modelled as
  filtering that enumeration, which preserves the ambient order.

* Python `raise` is modelled by `Except ConcatError`; the exception
  payloads (the column name and the conflicting dtypes interpolated into
  the `TypeError` message at lines 335-339 of the source) are carried
  structurally by `ConcatError.typeConflict`.

* `list_convert` is imported from `cprices.utils.helpers`, a file that is
  not part of the sources here; it is modelled from the spec (see
  `listConvertKey`).
-/

/-- An opaque cell value of a Spark column. -/
inductive Value where
  | null : Value
  | str : String → Value
  | prim : String → Nat → Value
  | casted : String → Value → Value
deriving DecidableEq, Repr

/-- Spark `Column.cast(dtype)` on a single value: `null` stays `null`,
a value already of the target dtype is unchanged, anything else becomes an
opaque converted value tagged with the target dtype. -/
def castVal : Value → String → Value
  | .null, _ => .null
  | .str s, d => if d = "string" then .str s else .casted d (.str s)
  | .prim t p, d => if d = t then .prim t p else .casted d (.prim t p)
  | .casted t v, d => if d = t then .casted t v else .casted d (.casted t v)

/-- A value conforms to a declared dtype (`null` conforms to every dtype). -/
def hasType : Value → String → Bool
  | .null, _ => true
  | .str _, d => d = "string"
  | .prim t _, d => d = t
  | .casted t _, d => d = t

/-- A Spark DataFrame: ordered column schema plus rows (each row is the
list of cell values, parallel to `cols`). -/
structure Frame where
  cols : List (String × String)
  rows : List (List Value)
deriving DecidableEq, Repr

/-- `df.columns`: the column names, in order. -/
def Frame.columns (f : Frame) : List String := f.cols.map Prod.fst

/-- Whether a single row is well formed for a schema: right arity and each
value conforming to the declared dtype of its position. -/
def rowOk (cols : List (String × String)) (r : List Value) : Bool :=
  decide (r.length = cols.length) && (cols.zip r).all (fun p => hasType p.2 p.1.2)

/-- A well-formed frame: distinct column names, at least one column (a
zero-column DataFrame makes `_get_schemas_df` blow up before anything else,
so the engine is only specified on nonempty schemas), and well-formed rows. -/
def Frame.WF (f : Frame) : Prop :=
  (f.cols.map Prod.fst).Nodup ∧ f.cols ≠ [] ∧ ∀ r ∈ f.rows, rowOk f.cols r = true

/-- Name-based extraction of a row's value for column `c` (the first
column with that name), `null` when the row has no such column. -/
def rowValue : List (String × String) → List Value → String → Value
  | [], _, _ => .null
  | _ :: _, [], _ => .null
  | (n, _) :: cs, v :: vs, c => if n = c then v else rowValue cs vs c

/-- All values of column `c`, in row order. -/
def Frame.colValues (f : Frame) (c : String) : List Value :=
  f.rows.map (fun r => rowValue f.cols r c)

/-- The declared dtype of column `c` (first occurrence), if present. -/
def dtypeOf : List (String × String) → String → Option String
  | [], _ => none
  | (n, d) :: cs, c => if n = c then some d else dtypeOf cs c

/-- Spark `withColumn(c, vals.cast(d))` as used at lines 341-348 of the
source: `vals` is the existing column when present (replaced in place)
and a `null` literal otherwise (appended at the end). -/
def Frame.withColumnCast (f : Frame) (c d : String) : Frame :=
  if f.columns.contains c then
    { cols := f.cols.map (fun nd => if nd.1 = c then (nd.1, d) else nd),
      rows := f.rows.map (fun r =>
        List.zipWith (fun nd v => if nd.1 = c then castVal v d else v) f.cols r) }
  else
    { cols := f.cols ++ [(c, d)],
      rows := f.rows.map (fun r => r ++ [castVal .null d]) }

/-- `SPARK_NUMBER_TYPES`, ordered big to small as in the source. -/
def SPARK_NUMBER_TYPES : List String :=
  ["decimal(10,0)", "double", "float", "bigint", "int", "smallint", "tinyint"]

/-- `_are_all_number_types`. -/
def areAllNumberTypes (dtypes : List String) : Bool :=
  dtypes.all (fun d => SPARK_NUMBER_TYPES.contains d)

/-- `_get_largest_number_dtype`: the first (widest) member of
`SPARK_NUMBER_TYPES` present in the input; the source's bare `next(...)`
raises `StopIteration` when nothing matches, modelled by `none`. -/
def getLargestNumberDtype (dtypes : List String) : Option String :=
  SPARK_NUMBER_TYPES.find? (fun d => dtypes.contains d)

/-- `_get_column_types`: all dtypes observed for a column name in the
schema set (the set order is inherited from the ambient enumeration). -/
def getColumnTypes (columnSchemas : List (String × String)) (columnName : String) :
    List String :=
  (columnSchemas.filter (fun nd => nd.1 = columnName)).map Prod.snd

/-- The rank of a dtype in the numeric lattice (position in
`SPARK_NUMBER_TYPES`; wider types have smaller rank). -/
def latticeRank : String → Nat
  | "decimal(10,0)" => 0
  | "double" => 1
  | "float" => 2
  | "bigint" => 3
  | "int" => 4
  | "smallint" => 5
  | "tinyint" => 6
  | _ => 7

/-- The errors `concat` and its helpers can raise.  Python exception
messages are modelled structurally; in particular `typeConflict` carries
the column name and the conflicting dtypes interpolated into the
`TypeError` message of `_ensure_consistent_schema`. -/
inductive ConcatError where
  | notIterable : String → ConcatError
  | emptyInput : ConcatError
  | keysLengthMismatch : ConcatError
  | mappingNeedsNames : ConcatError
  | mappingKeyMissing : ConcatError
  | notADataFrame : String → ConcatError
  | keyNamesLengthMismatch : ConcatError
  | unequalKeyLengths : ConcatError
  | typeConflict : String → List String → ConcatError
  | stopIteration : ConcatError
  | noneNames : ConcatError
  | noneKeys : ConcatError
  | reduceEmpty : ConcatError
  | unionLengthMismatch : ConcatError
  | unionMissingColumn : ConcatError
deriving DecidableEq, Repr

/-- Lines 325-339 of `_ensure_consistent_schema`, for a conflicted column:
all-numeric sets promote to the widest lattice member present, a set
containing "string" resolves to "string", anything else raises. -/
def resolveDtype (column : String) (colDtypes : List String) : Except ConcatError String :=
  if areAllNumberTypes colDtypes then
    match getLargestNumberDtype colDtypes with
    | some d => .ok d
    | none => .error .stopIteration
  else if colDtypes.contains "string" then .ok "string"
  else .error (.typeConflict column colDtypes)

/-- One pass of the conflict check for a schema pair `(column, dtype)`:
when the column has more than one observed dtype the promotion rule runs,
otherwise the pair's own dtype is kept. -/
def stepResolve (order : List (String × String)) (column dtype : String) :
    Except ConcatError String :=
  let colDtypes := getColumnTypes order column
  if 1 < colDtypes.length then resolveDtype column colDtypes else .ok dtype

/-- The loop body of `_ensure_consistent_schema`: fold over the pairs of
`column_schemas - set(frame.dtypes)` (already materialised as a list). -/
def ensureLoop (order : List (String × String)) :
    List (String × String) → Frame → Except ConcatError Frame
  | [], f => .ok f
  | (column, dtype) :: rest, f =>
    match stepResolve order column dtype with
    | .error e => .error e
    | .ok d => ensureLoop order rest (f.withColumnCast column d)

/-- `_ensure_consistent_schema(frame, column_schemas)`. -/
def ensureConsistentSchema (frame : Frame) (columnSchemas : List (String × String)) :
    Except ConcatError Frame :=
  ensureLoop columnSchemas
    (columnSchemas.filter (fun p => !(frame.cols.contains p))) frame

/-- The dtype every occurrence of column `c` ends up with after
reconciliation: the promotion result when conflicted, the single observed
dtype otherwise. -/
def specResolved (order : List (String × String)) (c : String) : Option String :=
  let ts := getColumnTypes order c
  if 1 < ts.length then
    match resolveDtype c ts with
    | .ok d => some d
    | .error _ => none
  else ts.head?

/-- Two frames have the same `(name, dtype)` pairs (as sets).  With
duplicate-free column names this is exactly `_compare_schemas`'s pandas
column-wise equality of one frame against another. -/
def sameSchemaSet (f g : Frame) : Bool :=
  f.cols.all (fun p => g.cols.contains p) && g.cols.all (fun p => f.cols.contains p)

/-- `_compare_schemas`: true when every frame's column-name-to-dtype
mapping coincides with the first frame's (pandas aligns on the column-name
index, so column order is irrelevant, but a missing entry — `NaN` in the
schemas dataframe — never compares equal). -/
def compareSchemas : List Frame → Bool
  | [] => true
  | f0 :: rest => (f0 :: rest).all (fun f => sameSchemaSet f f0)

/-- Spark `unionByName` (Spark < 3.1, no `allowMissingColumns`): fails
unless the two frames have the same number of columns and every column of
the left frame resolves in the right one; rows of the right frame are
realigned to the left frame's column order by name. -/
def unionByName (a b : Frame) : Except ConcatError Frame :=
  if a.cols.length ≠ b.cols.length then .error .unionLengthMismatch
  else if !(a.columns.all (fun c => b.columns.contains c)) then .error .unionMissingColumn
  else .ok { cols := a.cols,
             rows := a.rows ++ b.rows.map (fun r => a.cols.map (fun nd => rowValue b.cols r nd.1)) }

/-- `functools.reduce(SparkDF.unionByName, frames)`; reducing an empty
sequence is a `TypeError` in Python. -/
def reduceUnion : List Frame → Except ConcatError Frame
  | [] => .error .reduceEmpty
  | f :: rest => rest.foldlM unionByName f

/-- `frame.select(F.lit(part).alias(name), '*')`: prepend a string-literal
column. -/
def prependLit (f : Frame) (name part : String) : Frame :=
  { cols := (name, "string") :: f.cols, rows := f.rows.map (fun r => Value.str part :: r) }

/-- The inner tagging loop of `concat` (lines 223-226): prepend one tag
column per `(name, part)` pair, reversed so the final order follows
`names`. -/
def tagFrame (f : Frame) (names parts : List String) : Frame :=
  ((names.zip parts).reverse).foldl (fun fr np => prependLit fr np.1 np.2) f

/-- Tag every frame with its key parts (`zip(keys, frames)`). -/
def tagAll (names : List String) (keyLists : List (List String)) (frames : List Frame) :
    List Frame :=
  (keyLists.zip frames).map (fun pf => tagFrame pf.2 names pf.1)

/-- A provenance key: a single string or a tuple of string parts. -/
inductive PyKey where
  | scalar : String → PyKey
  | multi : List String → PyKey
deriving DecidableEq, Repr

/-- The `names` argument: Python `None`, a single string, or a list. -/
inductive PyNames where
  | none : PyNames
  | str : String → PyNames
  | list : List String → PyNames
deriving DecidableEq, Repr

/-- Modelled from the spec: `list_convert` lives in
`cprices.utils.helpers`, which is not among the sources; per `concat`'s
docstring ("names : str or list of str", "Each key can have multiple
parts") a bare scalar becomes a one-element list and a sequence is kept. -/
def listConvertKey : PyKey → List String
  | .scalar s => [s]
  | .multi l => l

/-- Modelled from the spec: `list_convert` applied to the `names`
argument.  `concat` only reaches this conversion with a non-`None` value
along the modelled paths (see `ConcatError.noneNames`). -/
def listConvertNames : PyNames → List String
  | .none => []
  | .str s => [s]
  | .list l => l

/-- Python truthiness of the `names` argument. -/
def namesTruthy : PyNames → Bool
  | .none => false
  | .str s => s ≠ ""
  | .list l => !l.isEmpty

/-- Python truthiness of the `keys` argument. -/
def keysTruthy : Option (List PyKey) → Bool
  | Option.none => false
  | Option.some l => !l.isEmpty

/-- An element of the input batch: a DataFrame or some other Python
object (carrying its type name, interpolated into the error message). -/
inductive Elem where
  | df : Frame → Elem
  | other : String → Elem
deriving DecidableEq, Repr

/-- The type name of the first non-DataFrame element, if any (the
validation loop at lines 176-181 raises at the first offender). -/
def firstNonDF : List Elem → Option String
  | [] => Option.none
  | .df _ :: rest => firstNonDF rest
  | .other t :: _ => Option.some t

/-- The underlying frame of a batch element (meaningful only after the
type-validation loop has passed). -/
def elemFrame : Elem → Frame
  | .df f => f
  | .other _ => { cols := [], rows := [] }

/-- The first argument of `concat`: a sequence of elements, a mapping
(an insertion-ordered `dict`), or one of the explicitly rejected
single-object forms of line 145. -/
inductive ConcatInput where
  | seq : List Elem → ConcatInput
  | mapping : List (PyKey × Elem) → ConcatInput
  | singleDF : Frame → ConcatInput
  | pystr : String → ConcatInput

/-- `frames[k]` on the mapping form. -/
def lookupMapping (pairs : List (PyKey × Elem)) (k : PyKey) : Option Elem :=
  (pairs.find? (fun p => p.1 = k)).map Prod.snd

/-- `[frames[k] for k in keys]`, failing (Python `KeyError`) when a key
is absent; keys are looked up left to right. -/
def mappingSelect (pairs : List (PyKey × Elem)) : List PyKey → Option (List Elem)
  | [] => Option.some []
  | k :: rest =>
    match lookupMapping pairs k with
    | Option.none => Option.none
    | Option.some e =>
      match mappingSelect pairs rest with
      | Option.none => Option.none
      | Option.some es => Option.some (e :: es)

/-- Lines 202-228 of `concat`: the early no-tag union, the
`list_convert` normalisation, the two arity checks, tagging, and the
final reduce over `unionByName`. -/
def assembleTagged (names : PyNames) (keys : Option (List PyKey)) (framesR : List Frame) :
    Except ConcatError Frame :=
  if !namesTruthy names && !keysTruthy keys then reduceUnion framesR
  else
    match names with
    | .none => .error .noneNames
    | _ =>
      match keys with
      | Option.none => .error .noneKeys
      | Option.some ks =>
        let nameList := listConvertNames names
        let keyLists := ks.map listConvertKey
        if !(keyLists.all (fun k => k.length = nameList.length)) then
          .error .keyNamesLengthMismatch
        else if !(keyLists.all (fun k => k.length = (keyLists.headD []).length)) then
          .error .unequalKeyLengths
        else reduceUnion (tagAll nameList keyLists framesR)

/-- The list comprehension at lines 193-196 of `concat`: reconcile every
frame against the schema set, left to right, failing at the first
unresolvable conflict. -/
def reconcileFrames (order : List (String × String)) :
    List Frame → Except ConcatError (List Frame)
  | [] => .ok []
  | f :: rest =>
    match ensureConsistentSchema f order with
    | .error e => .error e
    | .ok f' =>
      match reconcileFrames order rest with
      | .error e => .error e
      | .ok rest' => .ok (f' :: rest')

/-- Lines 175-228 of `concat` once the input shape has been normalised:
element-type validation, schema comparison, conditional reconciliation,
then tagging and union. -/
def concatFrames (elems : List Elem) (keys : Option (List PyKey)) (names : PyNames)
    (order : List (String × String)) : Except ConcatError Frame :=
  match firstNonDF elems with
  | Option.some t => .error (.notADataFrame t)
  | Option.none =>
    let frames := elems.map elemFrame
    match (if compareSchemas frames then Except.ok frames
           else reconcileFrames order frames) with
    | .error e => .error e
    | .ok framesR => assembleTagged names keys framesR

/-- `concat(frames, keys, names)`, with the set-iteration order of
`col_schemas` supplied explicitly (see the module docstring). -/
def concat (input : ConcatInput) (keys : Option (List PyKey)) (names : PyNames)
    (order : List (String × String)) : Except ConcatError Frame :=
  match input with
  | .singleDF _ => .error (.notIterable "DataFrame")
  | .pystr _ => .error (.notIterable "str")
  | .seq elems =>
    if elems.length = 0 then .error .emptyInput
    else if keysTruthy keys && elems.length ≠ (keys.getD []).length then
      .error .keysLengthMismatch
    else concatFrames elems keys names order
  | .mapping pairs =>
    if pairs.length = 0 then .error .emptyInput
    else if names = PyNames.none then .error .mappingNeedsNames
    else
      let ks := keys.getD (pairs.map Prod.fst)
      match mappingSelect pairs ks with
      | Option.none => .error .mappingKeyMissing
      | Option.some elems => concatFrames elems (Option.some ks) names order

/-- The `order` parameter is a faithful enumeration of the Python set
`col_schemas`: duplicate-free and containing exactly the `(name, dtype)`
pairs observed across the frames. -/
def IsSetOrder (order : List (String × String)) (frames : List Frame) : Prop :=
  order.Nodup ∧ (∀ p ∈ order, ∃ f ∈ frames, p ∈ f.cols) ∧
    (∀ f ∈ frames, ∀ p ∈ f.cols, p ∈ order)

instance (order : List (String × String)) (frames : List Frame) :
    Decidable (IsSetOrder order frames) := by
  unfold IsSetOrder; infer_instance

/-- All `(name, dtype)` pairs across the frames, with repetitions. -/
def allPairs (frames : List Frame) : List (String × String) :=
  (frames.map Frame.cols).flatten

/-- A column name for which the conflict at lines 332-339 is
unresolvable: several observed dtypes, not all numeric, none a string. -/
def stepResolveFails (order : List (String × String)) (c : String) : Prop :=
  1 < (getColumnTypes order c).length ∧
    areAllNumberTypes (getColumnTypes order c) = false ∧
    (getColumnTypes order c).contains "string" = false

instance (order : List (String × String)) (c : String) :
    Decidable (stepResolveFails order c) := by
  unfold stepResolveFails; infer_instance

instance (f : Frame) : Decidable f.WF := by
  unfold Frame.WF
  infer_instance

instance : DecidableEq (Except ConcatError Frame) := fun a b =>
  match a, b with
  | .error e₁, .error e₂ =>
    match decEq e₁ e₂ with
    | isTrue h => isTrue (congrArg Except.error h)
    | isFalse h => isFalse (fun hq => h (by injection hq))
  | .error _, .ok _ => isFalse (fun hq => Except.noConfusion hq)
  | .ok _, .error _ => isFalse (fun hq => Except.noConfusion hq)
  | .ok f₁, .ok f₂ =>
    match decEq f₁ f₂ with
    | isTrue h => isTrue (congrArg Except.ok h)
    | isFalse h => isFalse (fun hq => h (by injection hq))

instance : DecidableEq (Except ConcatError String) := fun a b =>
  match a, b with
  | .error e₁, .error e₂ =>
    match decEq e₁ e₂ with
    | isTrue h => isTrue (congrArg Except.error h)
    | isFalse h => isFalse (fun hq => h (by injection hq))
  | .error _, .ok _ => isFalse (fun hq => Except.noConfusion hq)
  | .ok _, .error _ => isFalse (fun hq => Except.noConfusion hq)
  | .ok s₁, .ok s₂ =>
    match decEq s₁ s₂ with
    | isTrue h => isTrue (congrArg Except.ok h)
    | isFalse h => isFalse (fun hq => h (by injection hq))

/-! ### Concrete frames used to instantiate the theorems -/

/-- The web-scraped table of the spec's concrete scenario:
`A = (id:int, name:string)`, two rows. -/
def wfA : Frame :=
  ⟨[("id", "int"), ("name", "string")],
   [[.prim "int" 1, .str "alice"], [.prim "int" 2, .str "bob"]]⟩

/-- The scanner table of the spec's concrete scenario:
`B = (id:double, city:string)`, one row. -/
def wfB : Frame :=
  ⟨[("id", "double"), ("city", "string")],
   [[.prim "double" 7, .str "leeds"]]⟩

/-- One enumeration of the schema set of `[wfA, wfB]`. -/
def wOrder : List (String × String) :=
  [("id", "int"), ("name", "string"), ("id", "double"), ("city", "string")]

/-- The unified output of the spec scenario (tag "source",
keys `scanner` / `web`). -/
def wOut : Frame :=
  ⟨[("source", "string"), ("id", "double"), ("name", "string"), ("city", "string")],
   [[.str "scanner", .casted "double" (.prim "int" 1), .str "alice", .null],
    [.str "scanner", .casted "double" (.prim "int" 2), .str "bob", .null],
    [.str "web", .prim "double" 7, .null, .str "leeds"]]⟩

/-- A one-column boolean table. -/
def wfBool : Frame := ⟨[("a", "boolean")], [[.prim "boolean" 0]]⟩

/-- A one-column date table over the same column name. -/
def wfDate : Frame := ⟨[("a", "date")], [[.prim "date" 0]]⟩

/-- The schema set of the boolean/date conflict batch. -/
def wOrderBD : List (String × String) := [("a", "boolean"), ("a", "date")]

/-- First table of the column-order counterexample. -/
def cadvA : Frame := ⟨[("a", "int")], [[.prim "int" 0]]⟩

/-- Second table of the column-order counterexample. -/
def cadvB : Frame := ⟨[("b", "int"), ("c", "int")], [[.prim "int" 1, .prim "int" 2]]⟩

/-- An admissible set-iteration order that is not first-seen order. -/
def cadvOrder : List (String × String) := [("a", "int"), ("c", "int"), ("b", "int")]

/-- The output `concat` produces under `cadvOrder`. -/
def cadvOut : Frame :=
  ⟨[("src", "string"), ("a", "int"), ("c", "int"), ("b", "int")],
   [[.str "x", .prim "int" 0, .null, .null],
    [.str "y", .null, .prim "int" 2, .prim "int" 1]]⟩

/-- First table of the missing-column batch: `(id:int, name:string)`. -/
def c3A : Frame := ⟨[("id", "int"), ("name", "string")], [[.prim "int" 1, .str "u"]]⟩

/-- Second table of the missing-column batch: `(id:int)` only. -/
def c3B : Frame := ⟨[("id", "int")], [[.prim "int" 2]]⟩

/-- The schema set of `[c3A, c3B]`: every name has exactly one dtype. -/
def c3Order : List (String × String) := [("id", "int"), ("name", "string")]

/-! ### Values and row lookup -/

theorem castVal_null (d : String) : castVal .null d = .null := rfl

theorem castVal_of_hasType {v : Value} {d : String} (h : hasType v d = true) :
    castVal v d = v := by
  cases v <;> simp [hasType] at h <;> simp [castVal, h]

theorem hasType_castVal (v : Value) (d : String) : hasType (castVal v d) d = true := by
  cases v with
  | null => rfl
  | str s => simp only [castVal]; split <;> simp_all [hasType]
  | prim t p => simp only [castVal]; split <;> simp_all [hasType]
  | casted t w => simp only [castVal]; split <;> simp_all [hasType]

theorem rowValue_nil (row : List Value) (c : String) : rowValue [] row c = .null := by
  cases row <;> rfl

theorem rowValue_not_mem : ∀ (cols : List (String × String)) (row : List Value) (c : String),
    c ∉ cols.map Prod.fst → rowValue cols row c = .null
  | [], row, c, _ => rowValue_nil row c
  | (_, _) :: _, [], _, _ => rfl
  | (n, d) :: cs, v :: vs, c, h => by
    simp only [List.map_cons, List.mem_cons, not_or] at h
    rw [rowValue, if_neg (fun hn => h.1 hn.symm)]
    exact rowValue_not_mem cs vs c h.2

theorem rowValue_append : ∀ (cols cols2 : List (String × String)) (row row2 : List Value)
    (c : String), row.length = cols.length →
    rowValue (cols ++ cols2) (row ++ row2) c =
      if c ∈ cols.map Prod.fst then rowValue cols row c else rowValue cols2 row2 c
  | [], _, [], _, c, _ => by simp
  | [], _, v :: vs, _, _, h => by simp at h
  | (n, d) :: cs, _, [], _, _, h => by simp at h
  | (n, d) :: cs, cols2, v :: vs, row2, c, h => by
    by_cases hnc : n = c
    · subst hnc
      simp [rowValue]
    · have hcn : ¬ c = n := fun hq => hnc hq.symm
      rw [List.cons_append, List.cons_append, rowValue, if_neg hnc,
        rowValue_append cs cols2 vs row2 c (by simpa using h)]
      simp only [List.map_cons, List.mem_cons]
      by_cases hmem : c ∈ cs.map Prod.fst
      · rw [if_pos hmem, if_pos (Or.inr hmem), rowValue, if_neg hnc]
      · rw [if_neg hmem, if_neg (by rintro (hq | hq); exact hcn hq; exact hmem hq)]

theorem rowValue_map_self : ∀ (cols : List (String × String)) (g : String → Value) (c : String),
    c ∈ cols.map Prod.fst →
    rowValue cols (cols.map (fun nd => g nd.1)) c = g c
  | [], _, _, h => by simp at h
  | (n, d) :: cs, g, c, h => by
    rw [List.map_cons, rowValue]
    by_cases hnc : n = c
    · subst hnc; simp
    · rw [if_neg hnc]
      have hc : c ∈ cs.map Prod.fst := by
        simp only [List.map_cons, List.mem_cons] at h
        rcases h with h | h
        · exact absurd h.symm hnc
        · exact h
      exact rowValue_map_self cs g c hc

theorem rowValue_replace : ∀ (cols : List (String × String)) (row : List Value) (cN d c : String),
    rowValue (cols.map (fun nd => if nd.1 = cN then (nd.1, d) else nd))
      (List.zipWith (fun nd v => if nd.1 = cN then castVal v d else v) cols row) c =
    if c = cN then castVal (rowValue cols row c) d else rowValue cols row c
  | [], row, cN, d, c => by
    simp only [List.map_nil, List.zipWith_nil_left, rowValue_nil, castVal_null]
    split <;> rfl
  | (n, dd) :: cs, [], cN, d, c => by
    simp only [List.zipWith_nil_right, rowValue_nil, castVal_null]
    rw [show rowValue (((n, dd) :: cs).map
      (fun nd => if nd.1 = cN then (nd.1, d) else nd)) [] c = .null from rfl]
    split <;> rfl
  | (n, dd) :: cs, v :: vs, cN, d, c => by
    have ih := rowValue_replace cs vs cN d c
    have hmap : List.map (fun nd => if nd.1 = cN then (nd.1, d) else nd) ((n, dd) :: cs) =
        (if n = cN then (n, d) else (n, dd)) ::
          List.map (fun nd => if nd.1 = cN then (nd.1, d) else nd) cs := by
      simp
    have hzip : List.zipWith (fun nd v => if nd.1 = cN then castVal v d else v)
        ((n, dd) :: cs) (v :: vs) =
        (if n = cN then castVal v d else v) ::
          List.zipWith (fun nd v => if nd.1 = cN then castVal v d else v) cs vs := by
      simp
    rw [hmap, hzip]
    by_cases hn : n = cN
    · rw [if_pos hn, if_pos hn]
      by_cases hnc : n = c
      · subst hnc
        simp [rowValue, hn]
      · have hcn : ¬ c = cN := fun hq => hnc (hn.trans hq.symm)
        simp [rowValue, hnc, hcn, ih]
    · rw [if_neg hn, if_neg hn]
      by_cases hnc : n = c
      · subst hnc
        simp [rowValue, hn]
      · simp [rowValue, hnc, ih]

theorem dtypeOf_append_of_not_mem : ∀ (xs ys : List (String × String)) (c : String),
    c ∉ xs.map Prod.fst → dtypeOf (xs ++ ys) c = dtypeOf ys c
  | [], _, _, _ => rfl
  | (n, d) :: xs, ys, c, h => by
    simp only [List.map_cons, List.mem_cons, not_or] at h
    rw [List.cons_append, dtypeOf, if_neg (fun hn => h.1 hn.symm)]
    exact dtypeOf_append_of_not_mem xs ys c h.2

theorem dtypeOf_eq_none : ∀ (xs : List (String × String)) (c : String),
    c ∉ xs.map Prod.fst → dtypeOf xs c = none
  | [], _, _ => rfl
  | (n, d) :: xs, c, h => by
    simp only [List.map_cons, List.mem_cons, not_or] at h
    rw [dtypeOf, if_neg (fun hn => h.1 hn.symm)]
    exact dtypeOf_eq_none xs c h.2

theorem dtypeOf_mem : ∀ (xs : List (String × String)) (c : String),
    c ∈ xs.map Prod.fst → ∃ d, dtypeOf xs c = some d ∧ (c, d) ∈ xs
  | [], _, h => by simp at h
  | (n, d) :: xs, c, h => by
    by_cases hnc : n = c
    · subst hnc
      exact ⟨d, by rw [dtypeOf, if_pos rfl], List.mem_cons_self _ _⟩
    · have hc : c ∈ xs.map Prod.fst := by
        simp only [List.map_cons, List.mem_cons] at h
        rcases h with h | h
        · exact absurd h.symm hnc
        · exact h
      obtain ⟨d', hd', hmem⟩ := dtypeOf_mem xs c hc
      exact ⟨d', by rw [dtypeOf, if_neg hnc]; exact hd', List.mem_cons_of_mem _ hmem⟩

theorem nodup_keys_eq : ∀ (l : List (String × String)),
    (l.map Prod.fst).Nodup →
    ∀ (c d₁ d₂ : String), (c, d₁) ∈ l → (c, d₂) ∈ l → d₁ = d₂
  | [], _, _, _, _, h₁, _ => by simp at h₁
  | (n, d) :: rest, h, c, d₁, d₂, h₁, h₂ => by
    simp only [List.map_cons, List.nodup_cons] at h
    rcases List.mem_cons.1 h₁ with e₁ | m₁ <;> rcases List.mem_cons.1 h₂ with e₂ | m₂
    · simpa using e₁.trans e₂.symm
    · injection e₁ with hc hd
      exact absurd (hc ▸ List.mem_map_of_mem Prod.fst m₂) h.1
    · injection e₂ with hc hd
      exact absurd (hc ▸ List.mem_map_of_mem Prod.fst m₁) h.1
    · exact nodup_keys_eq rest h.2 c d₁ d₂ m₁ m₂

/-! ### `withColumnCast` -/

theorem contains_iff {α : Type} [DecidableEq α] {l : List α} {a : α} :
    l.contains a = true ↔ a ∈ l := List.elem_iff

/-- Rows of a frame all have the arity of its schema. -/
def RowsWF (f : Frame) : Prop := ∀ r ∈ f.rows, r.length = f.cols.length

theorem RowsWF_of_WF {f : Frame} (h : f.WF) : RowsWF f := by
  intro r hr
  have h2 := h.2.2 r hr
  simp only [rowOk, Bool.and_eq_true, decide_eq_true_eq] at h2
  exact h2.1

theorem map_fst_replace (cols : List (String × String)) (c d : String) :
    (cols.map (fun nd => if nd.1 = c then (nd.1, d) else nd)).map Prod.fst =
      cols.map Prod.fst := by
  induction cols with
  | nil => rfl
  | cons nd rest ih =>
    obtain ⟨n, dd⟩ := nd
    by_cases hn : n = c <;> simp [hn, ih]

theorem withColumnCast_columns (f : Frame) (c d : String) :
    (f.withColumnCast c d).columns =
      if c ∈ f.columns then f.columns else f.columns ++ [c] := by
  unfold Frame.withColumnCast
  by_cases h : c ∈ f.columns
  · rw [if_pos (contains_iff.2 h), if_pos h]
    simp [Frame.columns, map_fst_replace]
    intro a b _
    split <;> rfl
  · rw [if_neg (fun hc => h (contains_iff.1 hc)), if_neg h]
    simp [Frame.columns]

theorem withColumnCast_mem_columns (f : Frame) (c d n : String) :
    n ∈ (f.withColumnCast c d).columns ↔ n ∈ f.columns ∨ n = c := by
  rw [withColumnCast_columns]
  split
  · next hc =>
    constructor
    · exact Or.inl
    · rintro (h | rfl)
      · exact h
      · exact hc
  · simp

theorem withColumnCast_nodup {f : Frame} (h : f.columns.Nodup) (c d : String) :
    (f.withColumnCast c d).columns.Nodup := by
  rw [withColumnCast_columns]
  split
  · exact h
  · next hc => simp [List.nodup_append, h, hc]

theorem withColumnCast_rows_length (f : Frame) (c d : String) :
    (f.withColumnCast c d).rows.length = f.rows.length := by
  unfold Frame.withColumnCast
  split <;> simp

theorem withColumnCast_rowsWF {f : Frame} (h : RowsWF f) (c d : String) :
    RowsWF (f.withColumnCast c d) := by
  unfold Frame.withColumnCast
  split
  · intro r hr
    simp only [List.mem_map] at hr
    obtain ⟨r0, hr0, rfl⟩ := hr
    simp [List.length_zipWith, h r0 hr0]
  · intro r hr
    simp only [List.mem_map] at hr
    obtain ⟨r0, hr0, rfl⟩ := hr
    simp [h r0 hr0]

theorem colValues_length (f : Frame) (c : String) :
    (f.colValues c).length = f.rows.length := by
  simp [Frame.colValues]

theorem withColumnCast_colValues_ne {f : Frame} (hWF : RowsWF f) (c c' d : String)
    (hne : c' ≠ c) :
    (f.withColumnCast c d).colValues c' = f.colValues c' := by
  unfold Frame.withColumnCast Frame.colValues
  by_cases h : c ∈ f.columns
  · rw [if_pos (contains_iff.2 h)]
    simp only [List.map_map]
    refine List.map_eq_map_iff.mpr (fun r hr => ?_)
    simp only [Function.comp_apply]
    rw [rowValue_replace f.cols r c d c', if_neg hne]
  · rw [if_neg (fun hc => h (contains_iff.1 hc))]
    simp only [List.map_map]
    refine List.map_eq_map_iff.mpr (fun r hr => ?_)
    simp only [Function.comp_apply]
    rw [rowValue_append f.cols [(c, d)] r [castVal .null d] c' (hWF r hr)]
    by_cases hm : c' ∈ f.cols.map Prod.fst
    · rw [if_pos hm]
    · rw [if_neg hm]
      rw [rowValue, if_neg (fun hq => hne hq.symm)]
      exact (rowValue_nil [] c').trans (rowValue_not_mem f.cols r c' hm).symm

theorem withColumnCast_colValues_self {f : Frame} (hWF : RowsWF f) (c d : String) :
    (f.withColumnCast c d).colValues c = (f.colValues c).map (fun v => castVal v d) := by
  unfold Frame.withColumnCast Frame.colValues
  by_cases h : c ∈ f.columns
  · rw [if_pos (contains_iff.2 h)]
    simp only [List.map_map]
    refine List.map_eq_map_iff.mpr (fun r hr => ?_)
    simp only [Function.comp_apply]
    rw [rowValue_replace f.cols r c d c, if_pos rfl]
  · rw [if_neg (fun hc => h (contains_iff.1 hc))]
    simp only [List.map_map]
    refine List.map_eq_map_iff.mpr (fun r hr => ?_)
    simp only [Function.comp_apply]
    rw [rowValue_append f.cols [(c, d)] r [castVal .null d] c (hWF r hr),
      if_neg (show ¬ c ∈ List.map Prod.fst f.cols from h),
      rowValue_not_mem f.cols r c h, castVal_null, rowValue, if_pos rfl]

theorem dtypeOf_replace_self : ∀ (cols : List (String × String)) (c d : String),
    c ∈ cols.map Prod.fst →
    dtypeOf (cols.map (fun nd => if nd.1 = c then (nd.1, d) else nd)) c = some d
  | [], c, d, h => by simp at h
  | (n, dd) :: cs, c, d, h => by
    by_cases hn : n = c
    · subst hn
      simp only [List.map_cons]
      simp only [if_true, eq_self_iff_true]
      rw [dtypeOf, if_pos rfl]
    · have hc : c ∈ cs.map Prod.fst := by
        simp only [List.map_cons, List.mem_cons] at h
        rcases h with h | h
        · exact absurd h.symm hn
        · exact h
      simp only [List.map_cons]
      rw [show (if (n, dd).1 = c then ((n, dd).1, d) else (n, dd)) = (n, dd) from by
        simp [hn]]
      rw [dtypeOf, if_neg hn]
      exact dtypeOf_replace_self cs c d hc

theorem dtypeOf_replace_ne : ∀ (cols : List (String × String)) (cN d c : String), ¬ c = cN →
    dtypeOf (cols.map (fun nd => if nd.1 = cN then (nd.1, d) else nd)) c = dtypeOf cols c
  | [], _, _, _, _ => rfl
  | (n, dd) :: cs, cN, d, c, hne => by
    by_cases hn : n = cN
    · subst hn
      have hnc : ¬ n = c := fun hq => hne hq.symm
      simp only [List.map_cons]
      simp only [if_true, eq_self_iff_true]
      rw [dtypeOf, if_neg hnc, dtypeOf, if_neg hnc]
      exact dtypeOf_replace_ne cs n d c hne
    · simp only [List.map_cons]
      rw [show (if (n, dd).1 = cN then ((n, dd).1, d) else (n, dd)) = (n, dd) from by
        simp [hn]]
      rw [dtypeOf, dtypeOf]
      by_cases hnc : n = c
      · rw [if_pos hnc, if_pos hnc]
      · rw [if_neg hnc, if_neg hnc]
        exact dtypeOf_replace_ne cs cN d c hne

theorem dtypeOf_append : ∀ (xs ys : List (String × String)) (c : String),
    dtypeOf (xs ++ ys) c = ((dtypeOf xs c).orElse (fun _ => dtypeOf ys c))
  | [], ys, c => rfl
  | (n, d) :: xs, ys, c => by
    rw [List.cons_append, dtypeOf, dtypeOf]
    by_cases hn : n = c
    · rw [if_pos hn, if_pos hn]
      rfl
    · rw [if_neg hn, if_neg hn]
      exact dtypeOf_append xs ys c

theorem withColumnCast_dtypeOf_self (f : Frame) (c d : String) :
    dtypeOf (f.withColumnCast c d).cols c = some d := by
  unfold Frame.withColumnCast
  by_cases h : c ∈ f.columns
  · rw [if_pos (contains_iff.2 h)]
    exact dtypeOf_replace_self f.cols c d h
  · rw [if_neg (fun hc => h (contains_iff.1 hc))]
    refine (dtypeOf_append f.cols [(c, d)] c).trans ?_
    rw [dtypeOf_eq_none f.cols c h]
    rw [show dtypeOf [(c, d)] c = some d from by rw [dtypeOf, if_pos rfl]]
    rfl

theorem withColumnCast_dtypeOf_ne (f : Frame) (c c' d : String) (hne : c' ≠ c) :
    dtypeOf (f.withColumnCast c d).cols c' = dtypeOf f.cols c' := by
  unfold Frame.withColumnCast
  by_cases h : c ∈ f.columns
  · rw [if_pos (contains_iff.2 h)]
    exact dtypeOf_replace_ne f.cols c d c' hne
  · rw [if_neg (fun hc => h (contains_iff.1 hc))]
    refine (dtypeOf_append f.cols [(c, d)] c').trans ?_
    rw [show dtypeOf [(c, d)] c' = none from by
      rw [dtypeOf, if_neg (fun hq => hne hq.symm)]; rfl]
    cases dtypeOf f.cols c' <;> rfl

theorem rowValue_hasType : ∀ (cols : List (String × String)) (r : List Value) (c dt : String),
    rowOk cols r = true → dtypeOf cols c = some dt →
    hasType (rowValue cols r c) dt = true
  | [], r, c, dt, _, hd => by simp [dtypeOf] at hd
  | (n, d) :: cs, [], c, dt, hok, hd => by simp [rowOk] at hok
  | (n, d) :: cs, v :: vs, c, dt, hok, hd => by
    simp only [rowOk, List.length_cons, decide_eq_true_eq, Bool.and_eq_true,
      List.zip_cons_cons, List.all_cons] at hok
    by_cases hn : n = c
    · rw [rowValue, if_pos hn]
      rw [dtypeOf, if_pos hn] at hd
      injection hd with hd'
      rw [← hd']
      exact hok.2.1
    · rw [rowValue, if_neg hn]
      rw [dtypeOf, if_neg hn] at hd
      refine rowValue_hasType cs vs c dt ?_ hd
      simp only [rowOk, decide_eq_true_eq, Bool.and_eq_true]
      exact ⟨by omega, hok.2.2⟩

theorem colValues_hasType {f : Frame} (hWF : f.WF) {c dt : String}
    (hd : dtypeOf f.cols c = some dt) :
    ∀ v ∈ f.colValues c, hasType v dt = true := by
  intro v hv
  simp only [Frame.colValues, List.mem_map] at hv
  obtain ⟨r, hr, rfl⟩ := hv
  exact rowValue_hasType f.cols r c dt (hWF.2.2 r hr) hd

theorem map_castVal_of_all_hasType {l : List Value} {d : String}
    (h : ∀ v ∈ l, hasType v d = true) : l.map (fun v => castVal v d) = l := by
  induction l with
  | nil => rfl
  | cons v vs ih =>
    rw [List.map_cons, castVal_of_hasType (h v (List.mem_cons_self v vs)),
      ih (fun w hw => h w (List.mem_cons_of_mem _ hw))]

/-! ### Conflict resolution analysis -/

theorem getLargest_isSome {ts : List String} (hne : ts ≠ [])
    (hnum : areAllNumberTypes ts = true) : ∃ d, getLargestNumberDtype ts = some d := by
  cases ts with
  | nil => exact absurd rfl hne
  | cons t rest =>
    have ht : t ∈ SPARK_NUMBER_TYPES :=
      contains_iff.1 ((List.all_eq_true.1 hnum) t (List.mem_cons_self t rest))
    have hex : ∃ x ∈ SPARK_NUMBER_TYPES, ((t :: rest).contains x) = true :=
      ⟨t, ht, contains_iff.2 (List.mem_cons_self t rest)⟩
    have hs := List.find?_isSome.2 hex
    obtain ⟨d, hd⟩ := Option.isSome_iff_exists.1 hs
    exact ⟨d, hd⟩

theorem stepResolve_error {order : List (String × String)} {c d : String} {e : ConcatError}
    (h : stepResolve order c d = .error e) :
    e = .typeConflict c (getColumnTypes order c) ∧ stepResolveFails order c := by
  simp only [stepResolve] at h
  by_cases hlen : 1 < (getColumnTypes order c).length
  · rw [if_pos hlen] at h
    simp only [resolveDtype] at h
    by_cases hnum : areAllNumberTypes (getColumnTypes order c) = true
    · rw [if_pos hnum] at h
      obtain ⟨w, hw⟩ := getLargest_isSome
        (by intro h0; rw [h0] at hlen; simp at hlen) hnum
      rw [hw] at h
      exact Except.noConfusion h
    · rw [if_neg hnum] at h
      by_cases hstr : (getColumnTypes order c).contains "string" = true
      · rw [if_pos hstr] at h
        exact Except.noConfusion h
      · rw [if_neg hstr] at h
        injection h with h'
        exact ⟨h'.symm, hlen, by simpa using hnum, by simpa using hstr⟩
  · rw [if_neg hlen] at h
    exact Except.noConfusion h

theorem stepResolve_of_fails {order : List (String × String)} {c : String}
    (hf : stepResolveFails order c) (d : String) :
    stepResolve order c d = .error (.typeConflict c (getColumnTypes order c)) := by
  obtain ⟨hlen, hnum, hstr⟩ := hf
  simp only [stepResolve]
  rw [if_pos hlen]
  simp only [resolveDtype]
  rw [if_neg (by rw [hnum]; simp), if_neg (by rw [hstr]; simp)]

theorem stepResolve_of_not_fails {order : List (String × String)} {c : String}
    (hf : ¬ stepResolveFails order c) (d : String) :
    ∃ d', stepResolve order c d = .ok d' := by
  simp only [stepResolve]
  by_cases hlen : 1 < (getColumnTypes order c).length
  · rw [if_pos hlen]
    simp only [resolveDtype]
    by_cases hnum : areAllNumberTypes (getColumnTypes order c) = true
    · rw [if_pos hnum]
      obtain ⟨w, hw⟩ := getLargest_isSome
        (by intro h0; rw [h0] at hlen; simp at hlen) hnum
      rw [hw]
      exact ⟨w, rfl⟩
    · rw [if_neg hnum]
      by_cases hstr : (getColumnTypes order c).contains "string" = true
      · rw [if_pos hstr]
        exact ⟨"string", rfl⟩
      · exact absurd ⟨hlen, by simpa using hnum, by simpa using hstr⟩ hf
  · rw [if_neg hlen]
    exact ⟨d, rfl⟩

/-! ### The reconciliation loop -/

theorem ensureLoop_ok_of (order : List (String × String)) :
    ∀ (diff : List (String × String)) (f : Frame),
    (∀ p ∈ diff, ∃ d', stepResolve order p.1 p.2 = .ok d') →
    ∃ f', ensureLoop order diff f = .ok f'
  | [], f, _ => ⟨f, rfl⟩
  | (c, d) :: rest, f, h => by
    obtain ⟨d', hd'⟩ := h (c, d) (List.mem_cons_self _ _)
    rw [ensureLoop, hd']
    exact ensureLoop_ok_of order rest (f.withColumnCast c d')
      (fun p hp => h p (List.mem_cons_of_mem _ hp))

theorem ensureLoop_ok_step (order : List (String × String)) :
    ∀ (diff : List (String × String)) (f f' : Frame),
    ensureLoop order diff f = .ok f' →
    ∀ p ∈ diff, ∃ d', stepResolve order p.1 p.2 = .ok d'
  | [], _, _, _, p, hp => by simp at hp
  | (c, d) :: rest, f, f', h, p, hp => by
    rw [ensureLoop] at h
    cases hsr : stepResolve order c d with
    | error e =>
      rw [hsr] at h
      exact Except.noConfusion h
    | ok dd =>
      rw [hsr] at h
      rcases List.mem_cons.1 hp with rfl | hp'
      · exact ⟨dd, hsr⟩
      · exact ensureLoop_ok_step order rest _ f' h p hp'

theorem ensureLoop_error_of (order : List (String × String)) :
    ∀ (diff : List (String × String)) (f : Frame),
    (∃ p ∈ diff, stepResolveFails order p.1) →
    ∃ c', ensureLoop order diff f = .error (.typeConflict c' (getColumnTypes order c')) ∧
      stepResolveFails order c'
  | [], _, h => by simp at h
  | (c, d) :: rest, f, h => by
    cases hsr : stepResolve order c d with
    | error e =>
      obtain ⟨he, hfail⟩ := stepResolve_error hsr
      refine ⟨c, ?_, hfail⟩
      rw [ensureLoop, hsr, he]
    | ok dd =>
      have hrest : ∃ p ∈ rest, stepResolveFails order p.1 := by
        obtain ⟨p, hp, hpf⟩ := h
        rcases List.mem_cons.1 hp with rfl | hp'
        · rw [stepResolve_of_fails hpf d] at hsr
          exact Except.noConfusion hsr
        · exact ⟨p, hp', hpf⟩
      obtain ⟨c', hc', hf'⟩ := ensureLoop_error_of order rest (f.withColumnCast c dd) hrest
      refine ⟨c', ?_, hf'⟩
      rw [ensureLoop, hsr]
      exact hc'

theorem ensureLoop_ok_columns (order : List (String × String)) :
    ∀ (diff : List (String × String)) (f f' : Frame),
    ensureLoop order diff f = .ok f' →
    ∃ extra, f'.columns = f.columns ++ extra ∧ ∀ n ∈ extra, n ∈ diff.map Prod.fst
  | [], f, f', h => by
    injection h with h
    subst h
    exact ⟨[], by simp, by simp⟩
  | (c, d) :: rest, f, f', h => by
    rw [ensureLoop] at h
    cases hsr : stepResolve order c d with
    | error e =>
      rw [hsr] at h
      exact Except.noConfusion h
    | ok dd =>
      rw [hsr] at h
      obtain ⟨extra, hcols, hmem⟩ := ensureLoop_ok_columns order rest _ f' h
      rw [withColumnCast_columns] at hcols
      by_cases hcf : c ∈ f.columns
      · rw [if_pos hcf] at hcols
        refine ⟨extra, hcols, fun n hn => ?_⟩
        simp only [List.map_cons, List.mem_cons]
        exact Or.inr (hmem n hn)
      · rw [if_neg hcf] at hcols
        refine ⟨c :: extra, by rw [hcols, List.append_assoc]; rfl, fun n hn => ?_⟩
        simp only [List.map_cons, List.mem_cons]
        rcases List.mem_cons.1 hn with rfl | hn'
        · exact Or.inl rfl
        · exact Or.inr (hmem n hn')

theorem ensureLoop_ok_mem_columns (order : List (String × String)) :
    ∀ (diff : List (String × String)) (f f' : Frame),
    ensureLoop order diff f = .ok f' →
    ∀ n, n ∈ f'.columns ↔ (n ∈ f.columns ∨ n ∈ diff.map Prod.fst)
  | [], f, f', h, n => by
    injection h with h
    subst h
    simp
  | (c, d) :: rest, f, f', h, n => by
    rw [ensureLoop] at h
    cases hsr : stepResolve order c d with
    | error e =>
      rw [hsr] at h
      exact Except.noConfusion h
    | ok dd =>
      rw [hsr] at h
      rw [ensureLoop_ok_mem_columns order rest _ f' h n, withColumnCast_mem_columns]
      simp only [List.map_cons, List.mem_cons]
      tauto

theorem ensureLoop_ok_nodup (order : List (String × String)) :
    ∀ (diff : List (String × String)) (f f' : Frame),
    ensureLoop order diff f = .ok f' → f.columns.Nodup → f'.columns.Nodup
  | [], f, f', h, hn => by
    injection h with h
    subst h
    exact hn
  | (c, d) :: rest, f, f', h, hn => by
    rw [ensureLoop] at h
    cases hsr : stepResolve order c d with
    | error e =>
      rw [hsr] at h
      exact Except.noConfusion h
    | ok dd =>
      rw [hsr] at h
      exact ensureLoop_ok_nodup order rest _ f' h (withColumnCast_nodup hn c dd)

theorem ensureLoop_ok_rows_length (order : List (String × String)) :
    ∀ (diff : List (String × String)) (f f' : Frame),
    ensureLoop order diff f = .ok f' → f'.rows.length = f.rows.length
  | [], f, f', h => by
    injection h with h
    subst h
    rfl
  | (c, d) :: rest, f, f', h => by
    rw [ensureLoop] at h
    cases hsr : stepResolve order c d with
    | error e =>
      rw [hsr] at h
      exact Except.noConfusion h
    | ok dd =>
      rw [hsr] at h
      rw [ensureLoop_ok_rows_length order rest _ f' h, withColumnCast_rows_length]

theorem ensureLoop_ok_rowsWF (order : List (String × String)) :
    ∀ (diff : List (String × String)) (f f' : Frame),
    ensureLoop order diff f = .ok f' → RowsWF f → RowsWF f'
  | [], f, f', h, hWF => by
    injection h with h
    subst h
    exact hWF
  | (c, d) :: rest, f, f', h, hWF => by
    rw [ensureLoop] at h
    cases hsr : stepResolve order c d with
    | error e =>
      rw [hsr] at h
      exact Except.noConfusion h
    | ok dd =>
      rw [hsr] at h
      exact ensureLoop_ok_rowsWF order rest _ f' h (withColumnCast_rowsWF hWF c dd)

theorem ensureLoop_ok_colValues_keep (order : List (String × String)) (c t : String) :
    ∀ (diff : List (String × String)) (f f' : Frame),
    ensureLoop order diff f = .ok f' → RowsWF f →
    (∀ d', (c, d') ∈ diff → stepResolve order c d' = .ok t) →
    (∀ v ∈ f.colValues c, hasType v t = true) →
    f'.colValues c = f.colValues c
  | [], f, f', h, _, _, _ => by
    injection h with h
    subst h
    rfl
  | (c₀, d₀) :: rest, f, f', h, hWF, hsteps, hvals => by
    rw [ensureLoop] at h
    cases hsr : stepResolve order c₀ d₀ with
    | error e =>
      rw [hsr] at h
      exact Except.noConfusion h
    | ok dd =>
      rw [hsr] at h
      by_cases hcc : c₀ = c
      · subst hcc
        have hdd : dd = t := by
          have h2 := (hsteps d₀ (List.mem_cons_self _ _)).symm.trans hsr
          injection h2 with h2
          exact h2.symm
        subst hdd
        have hkeep : (f.withColumnCast c₀ dd).colValues c₀ = f.colValues c₀ := by
          rw [withColumnCast_colValues_self hWF c₀ dd, map_castVal_of_all_hasType hvals]
        have IH := ensureLoop_ok_colValues_keep order c₀ dd rest (f.withColumnCast c₀ dd) f' h
          (withColumnCast_rowsWF hWF c₀ dd)
          (fun d' hd' => hsteps d' (List.mem_cons_of_mem _ hd'))
          (by rw [hkeep]; exact hvals)
        rw [IH, hkeep]
      · have hne : c ≠ c₀ := fun hq => hcc hq.symm
        have hkeep := withColumnCast_colValues_ne hWF c₀ c dd hne
        have IH := ensureLoop_ok_colValues_keep order c t rest (f.withColumnCast c₀ dd) f' h
          (withColumnCast_rowsWF hWF c₀ dd)
          (fun d' hd' => hsteps d' (List.mem_cons_of_mem _ hd'))
          (by rw [hkeep]; exact hvals)
        rw [IH, hkeep]

theorem ensureLoop_ok_colValues_null (order : List (String × String)) (c : String) :
    ∀ (diff : List (String × String)) (f f' : Frame),
    ensureLoop order diff f = .ok f' → RowsWF f →
    f.colValues c = List.replicate f.rows.length .null →
    f'.colValues c = List.replicate f.rows.length .null
  | [], f, f', h, _, hnull => by
    injection h with h
    subst h
    exact hnull
  | (c₀, d₀) :: rest, f, f', h, hWF, hnull => by
    rw [ensureLoop] at h
    cases hsr : stepResolve order c₀ d₀ with
    | error e =>
      rw [hsr] at h
      exact Except.noConfusion h
    | ok dd =>
      rw [hsr] at h
      by_cases hcc : c₀ = c
      · subst hcc
        have hstep : (f.withColumnCast c₀ dd).colValues c₀ =
            List.replicate (f.withColumnCast c₀ dd).rows.length .null := by
          rw [withColumnCast_colValues_self hWF c₀ dd, hnull, List.map_replicate,
            castVal_null, withColumnCast_rows_length]
        have IH := ensureLoop_ok_colValues_null order c₀ rest (f.withColumnCast c₀ dd) f' h
          (withColumnCast_rowsWF hWF c₀ dd) hstep
        rw [IH, withColumnCast_rows_length]
      · have hne : c ≠ c₀ := fun hq => hcc hq.symm
        have hstep : (f.withColumnCast c₀ dd).colValues c =
            List.replicate (f.withColumnCast c₀ dd).rows.length .null := by
          rw [withColumnCast_colValues_ne hWF c₀ c dd hne, withColumnCast_rows_length, hnull]
        have IH := ensureLoop_ok_colValues_null order c rest (f.withColumnCast c₀ dd) f' h
          (withColumnCast_rowsWF hWF c₀ dd) hstep
        rw [IH, withColumnCast_rows_length]

theorem ensureLoop_ok_dtypeOf (order : List (String × String)) (c t : String) :
    ∀ (diff : List (String × String)) (f f' : Frame),
    ensureLoop order diff f = .ok f' →
    (∀ d', (c, d') ∈ diff → stepResolve order c d' = .ok t) →
    (dtypeOf f.cols c = some t ∨ ∃ d', (c, d') ∈ diff) →
    dtypeOf f'.cols c = some t
  | [], f, f', h, _, hinit => by
    injection h with h
    subst h
    rcases hinit with h1 | ⟨d', hd'⟩
    · exact h1
    · simp at hd'
  | (c₀, d₀) :: rest, f, f', h, hsteps, hinit => by
    rw [ensureLoop] at h
    cases hsr : stepResolve order c₀ d₀ with
    | error e =>
      rw [hsr] at h
      exact Except.noConfusion h
    | ok dd =>
      rw [hsr] at h
      by_cases hcc : c₀ = c
      · subst hcc
        have hdd : dd = t := by
          have h2 := (hsteps d₀ (List.mem_cons_self _ _)).symm.trans hsr
          injection h2 with h2
          exact h2.symm
        subst hdd
        exact ensureLoop_ok_dtypeOf order c₀ dd rest (f.withColumnCast c₀ dd) f' h
          (fun d' hd' => hsteps d' (List.mem_cons_of_mem _ hd'))
          (Or.inl (withColumnCast_dtypeOf_self f c₀ dd))
      · have hne : c ≠ c₀ := fun hq => hcc hq.symm
        refine ensureLoop_ok_dtypeOf order c t rest (f.withColumnCast c₀ dd) f' h
          (fun d' hd' => hsteps d' (List.mem_cons_of_mem _ hd')) ?_
        rcases hinit with h1 | ⟨d', hd'⟩
        · exact Or.inl (by rw [withColumnCast_dtypeOf_ne f c₀ c dd hne]; exact h1)
        · rcases List.mem_cons.1 hd' with he | hm
          · exfalso
            injection he with he1 he2
            exact hcc he1.symm
          · exact Or.inr ⟨d', hm⟩

/-! ### `ensureConsistentSchema` -/

theorem mem_diff_iff (order : List (String × String)) (f : Frame) (p : String × String) :
    p ∈ order.filter (fun p => !(f.cols.contains p)) ↔ p ∈ order ∧ p ∉ f.cols := by
  simp [List.mem_filter]

theorem ensure_ok_of (f : Frame) (order : List (String × String))
    (h : ∀ p ∈ order, ¬ stepResolveFails order p.1) :
    ∃ f', ensureConsistentSchema f order = .ok f' := by
  apply ensureLoop_ok_of
  intro p hp
  exact stepResolve_of_not_fails (h p ((List.mem_filter.1 hp).1)) p.2

theorem two_pairs_of_conflict {order : List (String × String)} (hord : order.Nodup)
    {c : String} (hlen : 1 < (getColumnTypes order c).length) :
    ∃ p₁ p₂ : String × String,
      p₁ ∈ order ∧ p₂ ∈ order ∧ p₁.1 = c ∧ p₂.1 = c ∧ p₁ ≠ p₂ := by
  have hlen' : 1 < (order.filter (fun nd => nd.1 = c)).length := by
    simpa [getColumnTypes] using hlen
  have hnd : (order.filter (fun nd => nd.1 = c)).Nodup := List.Nodup.filter _ hord
  cases hfl : order.filter (fun nd => nd.1 = c) with
  | nil => rw [hfl] at hlen'; simp at hlen'
  | cons x tail =>
    cases tail with
    | nil => rw [hfl] at hlen'; simp at hlen'
    | cons y tail2 =>
      rw [hfl] at hnd
      have hx : x ∈ order.filter (fun nd => nd.1 = c) := by
        rw [hfl]; exact List.mem_cons_self _ _
      have hy : y ∈ order.filter (fun nd => nd.1 = c) := by
        rw [hfl]; exact List.mem_cons_of_mem _ (List.mem_cons_self _ _)
      have hxo := List.mem_filter.1 hx
      have hyo := List.mem_filter.1 hy
      refine ⟨x, y, hxo.1, hyo.1, by simpa using hxo.2, by simpa using hyo.2, ?_⟩
      intro hxy
      rw [List.nodup_cons] at hnd
      exact hnd.1 (hxy ▸ List.mem_cons_self y tail2)

theorem fails_pair_in_diff {order : List (String × String)} (hord : order.Nodup)
    {f : Frame} (hnodup : (f.cols.map Prod.fst).Nodup) {c : String}
    (hfails : stepResolveFails order c) :
    ∃ p ∈ order.filter (fun p => !(f.cols.contains p)), p.1 = c := by
  obtain ⟨p₁, p₂, h₁, h₂, hc₁, hc₂, hne⟩ := two_pairs_of_conflict hord hfails.1
  by_cases hm₁ : p₁ ∈ f.cols
  · by_cases hm₂ : p₂ ∈ f.cols
    · exfalso
      obtain ⟨n₁, d₁⟩ := p₁
      obtain ⟨n₂, d₂⟩ := p₂
      have hc₁' : n₁ = c := hc₁
      have hc₂' : n₂ = c := hc₂
      have hd : d₁ = d₂ :=
        nodup_keys_eq f.cols hnodup c d₁ d₂ (hc₁' ▸ hm₁) (hc₂' ▸ hm₂)
      exact hne (by rw [Prod.mk.injEq]; exact ⟨hc₁'.trans hc₂'.symm, hd⟩)
    · exact ⟨p₂, (mem_diff_iff order f p₂).2 ⟨h₂, hm₂⟩, hc₂⟩
  · exact ⟨p₁, (mem_diff_iff order f p₁).2 ⟨h₁, hm₁⟩, hc₁⟩

theorem ensure_error_of (f : Frame) (order : List (String × String))
    (hnodup : (f.cols.map Prod.fst).Nodup) (hord : order.Nodup)
    {c : String} (hfails : stepResolveFails order c) :
    ∃ c', ensureConsistentSchema f order =
        .error (.typeConflict c' (getColumnTypes order c')) ∧
      stepResolveFails order c' := by
  obtain ⟨p, hp, hpc⟩ := fails_pair_in_diff hord hnodup hfails
  exact ensureLoop_error_of order _ f ⟨p, hp, by rw [hpc]; exact hfails⟩

/-! ### `_compare_schemas` -/

theorem compareSchemas_cons (f0 : Frame) (rest : List Frame) :
    compareSchemas (f0 :: rest) = true ↔ ∀ f ∈ f0 :: rest, sameSchemaSet f f0 = true := by
  simp [compareSchemas, List.all_eq_true]

theorem sameSchemaSet_iff {f g : Frame} :
    sameSchemaSet f g = true ↔
      ((∀ p ∈ f.cols, p ∈ g.cols) ∧ (∀ p ∈ g.cols, p ∈ f.cols)) := by
  simp [sameSchemaSet, List.all_eq_true, contains_iff]

theorem compareSchemas_eq_false {f0 : Frame} {rest : List Frame}
    (hnodup : (f0.cols.map Prod.fst).Nodup)
    {order : List (String × String)} (ho : IsSetOrder order (f0 :: rest)) {c : String}
    (hlen : 1 < (getColumnTypes order c).length) :
    compareSchemas (f0 :: rest) = false := by
  rw [Bool.eq_false_iff]
  intro htrue
  obtain ⟨p₁, p₂, h₁, h₂, hc₁, hc₂, hne⟩ := two_pairs_of_conflict ho.1 hlen
  obtain ⟨g₁, hg₁, hpg₁⟩ := ho.2.1 p₁ h₁
  obtain ⟨g₂, hg₂, hpg₂⟩ := ho.2.1 p₂ h₂
  have hall := (compareSchemas_cons f0 rest).1 htrue
  have e₁ : p₁ ∈ f0.cols := (sameSchemaSet_iff.1 (hall g₁ hg₁)).1 p₁ hpg₁
  have e₂ : p₂ ∈ f0.cols := (sameSchemaSet_iff.1 (hall g₂ hg₂)).1 p₂ hpg₂
  obtain ⟨n₁, d₁⟩ := p₁
  obtain ⟨n₂, d₂⟩ := p₂
  have hc₁' : n₁ = c := hc₁
  have hc₂' : n₂ = c := hc₂
  have hd : d₁ = d₂ :=
    nodup_keys_eq f0.cols hnodup c d₁ d₂ (hc₁' ▸ e₁) (hc₂' ▸ e₂)
  exact hne (by rw [Prod.mk.injEq]; exact ⟨hc₁'.trans hc₂'.symm, hd⟩)

/-! ### `unionByName` and the reduce -/

theorem unionByName_ok {a b u : Frame} (h : unionByName a b = .ok u) :
    u.cols = a.cols ∧
    u.rows = a.rows ++ b.rows.map (fun r => a.cols.map (fun nd => rowValue b.cols r nd.1)) := by
  simp only [unionByName] at h
  split at h
  · exact Except.noConfusion h
  · split at h
    · exact Except.noConfusion h
    · injection h with h
      subst h
      exact ⟨rfl, rfl⟩

theorem unionByName_ok_colValues {a b u : Frame} (h : unionByName a b = .ok u)
    {c : String} (hc : c ∈ a.columns) :
    u.colValues c = a.colValues c ++ b.colValues c := by
  obtain ⟨hcols, hrows⟩ := unionByName_ok h
  unfold Frame.colValues
  rw [hcols, hrows, List.map_append, List.map_map]
  congr 1
  refine List.map_eq_map_iff.mpr (fun r hr => ?_)
  simp only [Function.comp_apply]
  exact rowValue_map_self a.cols (fun n => rowValue b.cols r n) c hc

theorem unionByName_ok_rows_length {a b u : Frame} (h : unionByName a b = .ok u) :
    u.rows.length = a.rows.length + b.rows.length := by
  obtain ⟨_, hrows⟩ := unionByName_ok h
  rw [hrows]
  simp

theorem unionByName_ok_of (a b : Frame) (hlen : a.cols.length = b.cols.length)
    (hsub : ∀ n ∈ a.columns, n ∈ b.columns) :
    ∃ u, unionByName a b = .ok u := by
  simp only [unionByName]
  rw [if_neg (fun hq => hq hlen),
    if_neg (by rw [List.all_eq_true.2 (fun c hcm => contains_iff.2 (hsub c hcm))]; simp)]
  exact ⟨_, rfl⟩

theorem except_bind_ok {ε α β : Type} {x : Except ε α} {g : α → Except ε β} {b : β}
    (h : (x >>= g) = .ok b) : ∃ a, x = .ok a ∧ g a = .ok b := by
  cases x with
  | error e => exact Except.noConfusion h
  | ok a => exact ⟨a, rfl, h⟩

theorem reduceUnion_fold_ok : ∀ (gs : List Frame) (g out : Frame),
    List.foldlM unionByName g gs = .ok out →
    out.cols = g.cols ∧
    (∀ c, c ∈ g.columns →
      out.colValues c = g.colValues c ++ (gs.map (fun x => Frame.colValues x c)).flatten) ∧
    out.rows.length = g.rows.length + (gs.map (fun x => x.rows.length)).sum
  | [], g, out, h => by
    injection h with h
    subst h
    exact ⟨rfl, fun c _ => by simp, by simp⟩
  | b :: bs, g, out, h => by
    rw [List.foldlM_cons] at h
    obtain ⟨u, hu, hrest⟩ := except_bind_ok h
    obtain ⟨hcols, hvals, hlen⟩ := reduceUnion_fold_ok bs u out hrest
    obtain ⟨hucols, _⟩ := unionByName_ok hu
    have hcolseq : u.columns = g.columns := congrArg (List.map Prod.fst) hucols
    refine ⟨hcols.trans hucols, fun c hc => ?_, ?_⟩
    · have hcu : c ∈ u.columns := by rw [hcolseq]; exact hc
      rw [hvals c hcu, unionByName_ok_colValues hu hc]
      simp [List.append_assoc]
    · rw [hlen, unionByName_ok_rows_length hu]
      simp [Nat.add_assoc]

theorem reduceUnion_fold_ok_of : ∀ (gs : List Frame) (g : Frame),
    (∀ x ∈ gs, x.cols.length = g.cols.length ∧ ∀ n ∈ g.columns, n ∈ x.columns) →
    ∃ out, List.foldlM unionByName g gs = .ok out
  | [], g, _ => ⟨g, rfl⟩
  | b :: bs, g, hcond => by
    obtain ⟨u, hu⟩ := unionByName_ok_of g b
      ((hcond b (List.mem_cons_self _ _)).1.symm)
      ((hcond b (List.mem_cons_self _ _)).2)
    obtain ⟨hucols, _⟩ := unionByName_ok hu
    have hcolseq : u.columns = g.columns := congrArg (List.map Prod.fst) hucols
    obtain ⟨out, hout⟩ := reduceUnion_fold_ok_of bs u (fun x hx =>
      ⟨(hcond x (List.mem_cons_of_mem _ hx)).1.trans (congrArg List.length hucols).symm,
       fun n hn => (hcond x (List.mem_cons_of_mem _ hx)).2 n (by rwa [hcolseq] at hn)⟩)
    refine ⟨out, ?_⟩
    rw [List.foldlM_cons, hu]
    exact hout

/-! ### Tagging -/

theorem tagList_shape : ∀ (l : List (String × String)) (f : Frame),
    (l.foldr (fun np fr => prependLit fr np.1 np.2) f) =
      { cols := l.map (fun np => (np.1, "string")) ++ f.cols,
        rows := f.rows.map (fun r => (l.map (fun np => Value.str np.2)) ++ r) }
  | [], f => by
    cases f
    simp
  | np :: rest, f => by
    obtain ⟨nm, pt⟩ := np
    rw [List.foldr_cons, tagList_shape rest f]
    simp [prependLit, List.map_map, Function.comp]

theorem tagFrame_shape (f : Frame) (nm parts : List String) :
    tagFrame f nm parts =
      { cols := (nm.zip parts).map (fun np => (np.1, "string")) ++ f.cols,
        rows := f.rows.map (fun r => ((nm.zip parts).map (fun np => Value.str np.2)) ++ r) } := by
  unfold tagFrame
  rw [List.foldl_reverse]
  exact tagList_shape (nm.zip parts) f

theorem tagFrame_columns (f : Frame) (nm parts : List String)
    (hlen : nm.length = parts.length) :
    (tagFrame f nm parts).columns = nm ++ f.columns := by
  rw [tagFrame_shape]
  show (((nm.zip parts).map (fun np => (np.1, "string")) ++ f.cols).map Prod.fst) = _
  rw [List.map_append, List.map_map]
  congr 1
  rw [show ((Prod.fst ∘ fun np : String × String => (np.1, "string"))) = Prod.fst from rfl]
  exact List.map_fst_zip nm parts (le_of_eq hlen)

theorem tagFrame_colValues (f : Frame) (nm parts : List String) {c : String}
    (hc : c ∉ nm) :
    (tagFrame f nm parts).colValues c = f.colValues c := by
  rw [tagFrame_shape]
  unfold Frame.colValues
  simp only [List.map_map]
  refine List.map_eq_map_iff.mpr (fun r hr => ?_)
  simp only [Function.comp_apply]
  rw [rowValue_append _ _ _ _ _ (by simp)]
  rw [if_neg (fun hm => ?_)]
  simp only [List.map_map, List.mem_map, Function.comp_apply] at hm
  obtain ⟨np, hnp, he⟩ := hm
  exact hc (he ▸ (List.of_mem_zip hnp).1)

theorem tagFrame_rows_length (f : Frame) (nm parts : List String) :
    (tagFrame f nm parts).rows.length = f.rows.length := by
  rw [tagFrame_shape]
  simp

/-! ### Reconciliation of a batch -/

theorem reconcileFrames_ok (order : List (String × String)) :
    ∀ (frames framesR : List Frame),
    reconcileFrames order frames = .ok framesR →
    List.Forall₂ (fun f f' => ensureConsistentSchema f order = .ok f') frames framesR
  | [], framesR, h => by
    injection h with h
    subst h
    exact List.Forall₂.nil
  | f :: rest, framesR, h => by
    cases he : ensureConsistentSchema f order with
    | error e =>
      rw [reconcileFrames, he] at h
      exact Except.noConfusion h
    | ok f' =>
      rw [reconcileFrames, he] at h
      cases hr : reconcileFrames order rest with
      | error e =>
        rw [hr] at h
        exact Except.noConfusion h
      | ok rest' =>
        rw [hr] at h
        injection h with h
        subst h
        exact List.Forall₂.cons he (reconcileFrames_ok order rest rest' hr)

theorem reconcileFrames_ok_of (order : List (String × String)) :
    ∀ (frames : List Frame),
    (∀ f ∈ frames, ∃ f', ensureConsistentSchema f order = .ok f') →
    ∃ framesR, reconcileFrames order frames = .ok framesR
  | [], _ => ⟨[], rfl⟩
  | f :: rest, h => by
    obtain ⟨f', he⟩ := h f (List.mem_cons_self _ _)
    obtain ⟨rest', hr⟩ := reconcileFrames_ok_of order rest
      (fun g hg => h g (List.mem_cons_of_mem _ hg))
    exact ⟨f' :: rest', by rw [reconcileFrames, he, hr]⟩

theorem reconcileFrames_error_head (order : List (String × String)) (f : Frame)
    (rest : List Frame) {e : ConcatError} (h : ensureConsistentSchema f order = .error e) :
    reconcileFrames order (f :: rest) = .error e := by
  rw [reconcileFrames, h]

theorem forall₂_getElem? {α β : Type} {R : α → β → Prop} :
    ∀ {l : List α} {l' : List β}, List.Forall₂ R l l' →
    ∀ {i : Nat} {a : α}, l[i]? = some a → ∃ b, l'[i]? = some b ∧ R a b := by
  intro l l' h
  induction h with
  | nil =>
    intro i a h
    simp at h
  | cons hr hrest ih =>
    intro i a hga
    cases i with
    | zero =>
      rw [List.getElem?_cons_zero] at hga
      injection hga with hga
      subst hga
      exact ⟨_, List.getElem?_cons_zero, hr⟩
    | succ n =>
      rw [List.getElem?_cons_succ] at hga
      obtain ⟨b, hb, hrb⟩ := ih hga
      exact ⟨b, by rw [List.getElem?_cons_succ]; exact hb, hrb⟩

theorem forall₂_map_eq {α β γ : Type} {g : α → γ} {k : β → γ} :
    ∀ {l : List α} {l' : List β}, List.Forall₂ (fun a b => g a = k b) l l' →
    l.map g = l'.map k := by
  intro l l' h
  induction h with
  | nil => rfl
  | cons hr hrest ih => simp [hr, ih]

theorem flatten_segment {α : Type} : ∀ (L : List (List α)) (i : Nat) (xs : List α),
    L[i]? = some xs →
    ((L.flatten.drop (((L.take i).map List.length).sum)).take xs.length) = xs
  | [], i, xs, h => by simp at h
  | b :: bs, 0, xs, h => by
    rw [List.getElem?_cons_zero] at h
    injection h with h
    subst h
    simp [List.take_left]
  | b :: bs, Nat.succ n, xs, h => by
    rw [List.getElem?_cons_succ] at h
    have ih := flatten_segment bs n xs h
    simp only [List.take_succ_cons, List.map_cons, List.sum_cons, List.flatten_cons]
    rw [← List.drop_drop, List.drop_left]
    exact ih

theorem length_eq_of_nodup_mem {α : Type} [DecidableEq α] {l₁ l₂ : List α}
    (h₁ : l₁.Nodup) (h₂ : l₂.Nodup) (hm : ∀ a, a ∈ l₁ ↔ a ∈ l₂) :
    l₁.length = l₂.length := by
  rw [← List.toFinset_card_of_nodup h₁, ← List.toFinset_card_of_nodup h₂]
  congr 1
  ext a
  simp [hm a]

/-! ### Mapping selection -/

theorem lookupMapping_cons_self (k : PyKey) (e : Elem) (pairs : List (PyKey × Elem)) :
    lookupMapping ((k, e) :: pairs) k = some e := by
  unfold lookupMapping
  rw [List.find?_cons_of_pos _ (by simp)]
  rfl

theorem lookupMapping_cons_ne (k₀ : PyKey) (e₀ : Elem) (pairs : List (PyKey × Elem))
    (k : PyKey) (hne : k ≠ k₀) :
    lookupMapping ((k₀, e₀) :: pairs) k = lookupMapping pairs k := by
  unfold lookupMapping
  rw [List.find?_cons_of_neg _ (by simp; exact fun hq => hne hq.symm)]

theorem mappingSelect_congr (pairs₁ pairs₂ : List (PyKey × Elem)) :
    ∀ (ks : List PyKey),
    (∀ k ∈ ks, lookupMapping pairs₁ k = lookupMapping pairs₂ k) →
    mappingSelect pairs₁ ks = mappingSelect pairs₂ ks
  | [], _ => rfl
  | k :: rest, h => by
    rw [mappingSelect, mappingSelect, h k (List.mem_cons_self _ _),
      mappingSelect_congr pairs₁ pairs₂ rest (fun k' hk' => h k' (List.mem_cons_of_mem _ hk'))]

theorem mappingSelect_self : ∀ (pairs : List (PyKey × Elem)),
    (pairs.map Prod.fst).Nodup →
    mappingSelect pairs (pairs.map Prod.fst) = some (pairs.map Prod.snd)
  | [], _ => rfl
  | (k, e) :: rest, h => by
    simp only [List.map_cons, List.nodup_cons] at h
    rw [List.map_cons, mappingSelect, lookupMapping_cons_self,
      mappingSelect_congr ((k, e) :: rest) rest (rest.map Prod.fst)
        (fun k' hk' => lookupMapping_cons_ne k e rest k'
          (fun hq => h.1 (by rw [← hq]; exact hk'))),
      mappingSelect_self rest h.2]
    simp

theorem mappingSelect_length : ∀ (pairs : List (PyKey × Elem)) (ks : List PyKey)
    (elems : List Elem), mappingSelect pairs ks = some elems → elems.length = ks.length
  | _, [], elems, h => by
    injection h with h
    subst h
    rfl
  | pairs, k :: rest, elems, h => by
    cases hl : lookupMapping pairs k with
    | none =>
      rw [mappingSelect, hl] at h
      exact Option.noConfusion h
    | some e =>
      rw [mappingSelect, hl] at h
      cases hr : mappingSelect pairs rest with
      | none =>
        rw [hr] at h
        exact Option.noConfusion h
      | some es =>
        rw [hr] at h
        injection h with h
        subst h
        simp [mappingSelect_length pairs rest es hr]

/-! ### Unfolding `concat` on well-shaped inputs -/

theorem firstNonDF_map_df : ∀ (frames : List Frame),
    firstNonDF (frames.map Elem.df) = Option.none
  | [] => rfl
  | _ :: rest => firstNonDF_map_df rest

theorem elemFrame_map_df (frames : List Frame) :
    (frames.map Elem.df).map elemFrame = frames := by
  rw [List.map_map]
  exact (List.map_eq_map_iff.mpr (fun f _ => rfl)).trans (List.map_id _)

theorem concat_seq_unfold (frames : List Frame) (keys : Option (List PyKey))
    (names : PyNames) (order : List (String × String))
    (hne : frames ≠ [])
    (hpre : ¬(keysTruthy keys = true ∧ frames.length ≠ (keys.getD []).length)) :
    concat (.seq (frames.map Elem.df)) keys names order =
      (match (if compareSchemas frames then Except.ok frames
              else reconcileFrames order frames) with
       | .error e => .error e
       | .ok framesR => assembleTagged names keys framesR) := by
  simp only [concat]
  rw [if_neg (by rw [List.length_map]; exact fun h0 => hne (List.length_eq_zero.1 h0)),
    if_neg (by
      rw [Bool.and_eq_true]
      rintro ⟨h1, h2⟩
      rw [List.length_map] at h2
      exact hpre ⟨h1, by simpa using h2⟩)]
  simp only [concatFrames, firstNonDF_map_df, elemFrame_map_df]

theorem assembleTagged_no_tags (framesR : List Frame) :
    assembleTagged PyNames.none Option.none framesR = reduceUnion framesR := rfl

theorem assembleTagged_tags (nm : List String) (hnm : nm ≠ []) (ks : List PyKey)
    (framesR : List Frame) :
    assembleTagged (PyNames.list nm) (Option.some ks) framesR =
      (if !((ks.map listConvertKey).all (fun k => k.length = nm.length)) then
         Except.error ConcatError.keyNamesLengthMismatch
       else if !((ks.map listConvertKey).all
           (fun k => k.length = ((ks.map listConvertKey).headD []).length)) then
         Except.error ConcatError.unequalKeyLengths
       else reduceUnion (tagAll nm (ks.map listConvertKey) framesR)) := by
  simp only [assembleTagged]
  rw [if_neg (by
    rw [Bool.and_eq_true]
    rintro ⟨h1, _⟩
    rw [show namesTruthy (PyNames.list nm) = !nm.isEmpty from rfl] at h1
    simp only [Bool.not_not] at h1
    exact hnm (by simpa using h1))]
  rfl

theorem ensure_ok_mem_order {f g : Frame} {order : List (String × String)}
    (hsub : ∀ p ∈ f.cols, p ∈ order)
    (h : ensureConsistentSchema f order = .ok g) :
    ∀ n, n ∈ g.columns ↔ n ∈ order.map Prod.fst := by
  intro n
  rw [ensureLoop_ok_mem_columns order (order.filter (fun p => !(f.cols.contains p))) f g h n]
  constructor
  · rintro (hn | hn)
    · simp only [Frame.columns, List.mem_map] at hn
      obtain ⟨p, hp, rfl⟩ := hn
      exact List.mem_map_of_mem Prod.fst (hsub p hp)
    · simp only [List.mem_map] at hn
      obtain ⟨p, hp, rfl⟩ := hn
      exact List.mem_map_of_mem Prod.fst ((mem_diff_iff order f p).1 hp).1
  · intro hn
    simp only [List.mem_map] at hn
    obtain ⟨p, hp, rfl⟩ := hn
    by_cases hpf : p ∈ f.cols
    · exact Or.inl (List.mem_map_of_mem Prod.fst hpf)
    · exact Or.inr (List.mem_map_of_mem Prod.fst ((mem_diff_iff order f p).2 ⟨hp, hpf⟩))

/-! ### Claim C1 -/

theorem getLargest_min {ts : List String} {w : String}
    (hw : getLargestNumberDtype ts = some w) :
    ∀ t ∈ ts, t ∈ SPARK_NUMBER_TYPES → latticeRank w ≤ latticeRank t := by
  intro t ht htS
  have hcont : ts.contains t = true := contains_iff.2 ht
  simp only [SPARK_NUMBER_TYPES, List.mem_cons, List.not_mem_nil, or_false] at htS
  unfold getLargestNumberDtype SPARK_NUMBER_TYPES at hw
  by_cases h0 : ts.contains "decimal(10,0)" = true
  · rw [List.find?_cons_of_pos _ h0] at hw
    injection hw with hw
    subst hw
    rcases htS with rfl | rfl | rfl | rfl | rfl | rfl | rfl <;> decide
  · rw [List.find?_cons_of_neg _ h0] at hw
    by_cases h1 : ts.contains "double" = true
    · rw [List.find?_cons_of_pos _ h1] at hw
      injection hw with hw
      subst hw
      rcases htS with rfl | rfl | rfl | rfl | rfl | rfl | rfl <;>
        first
          | decide
          | exact absurd hcont h0
    · rw [List.find?_cons_of_neg _ h1] at hw
      by_cases h2 : ts.contains "float" = true
      · rw [List.find?_cons_of_pos _ h2] at hw
        injection hw with hw
        subst hw
        rcases htS with rfl | rfl | rfl | rfl | rfl | rfl | rfl <;>
          first
            | decide
            | exact absurd hcont h0
            | exact absurd hcont h1
      · rw [List.find?_cons_of_neg _ h2] at hw
        by_cases h3 : ts.contains "bigint" = true
        · rw [List.find?_cons_of_pos _ h3] at hw
          injection hw with hw
          subst hw
          rcases htS with rfl | rfl | rfl | rfl | rfl | rfl | rfl <;>
            first
              | decide
              | exact absurd hcont h0
              | exact absurd hcont h1
              | exact absurd hcont h2
        · rw [List.find?_cons_of_neg _ h3] at hw
          by_cases h4 : ts.contains "int" = true
          · rw [List.find?_cons_of_pos _ h4] at hw
            injection hw with hw
            subst hw
            rcases htS with rfl | rfl | rfl | rfl | rfl | rfl | rfl <;>
              first
                | decide
                | exact absurd hcont h0
                | exact absurd hcont h1
                | exact absurd hcont h2
                | exact absurd hcont h3
          · rw [List.find?_cons_of_neg _ h4] at hw
            by_cases h5 : ts.contains "smallint" = true
            · rw [List.find?_cons_of_pos _ h5] at hw
              injection hw with hw
              subst hw
              rcases htS with rfl | rfl | rfl | rfl | rfl | rfl | rfl <;>
                first
                  | decide
                  | exact absurd hcont h0
                  | exact absurd hcont h1
                  | exact absurd hcont h2
                  | exact absurd hcont h3
                  | exact absurd hcont h4
            · rw [List.find?_cons_of_neg _ h5] at hw
              by_cases h6 : ts.contains "tinyint" = true
              · rw [List.find?_cons_of_pos _ h6] at hw
                injection hw with hw
                subst hw
                rcases htS with rfl | rfl | rfl | rfl | rfl | rfl | rfl <;>
                  first
                    | decide
                    | exact absurd hcont h0
                    | exact absurd hcont h1
                    | exact absurd hcont h2
                    | exact absurd hcont h3
                    | exact absurd hcont h4
                    | exact absurd hcont h5
              · rw [List.find?_cons_of_neg _ h6] at hw
                exact Option.noConfusion hw

/-- C1: for every conflicted column name, type promotion follows the fixed
widest-first numeric precedence with string dominating: an observed type
set that lies entirely inside the numeric lattice resolves to the widest
(earliest in `SPARK_NUMBER_TYPES`) member present; the set consisting of
int and double resolves to double; the set consisting of double and string
resolves to string. -/
theorem c1_type_promotion :
    (∀ (column : String) (ts : List String), 2 ≤ ts.length →
      (∀ t ∈ ts, t ∈ SPARK_NUMBER_TYPES) →
      ∃ w, resolveDtype column ts = .ok w ∧ w ∈ ts ∧
        ∀ t ∈ ts, latticeRank w ≤ latticeRank t)
  ∧ (∀ (column : String) (ts : List String),
      ts = ["int", "double"] ∨ ts = ["double", "int"] →
      resolveDtype column ts = .ok "double")
  ∧ (∀ (column : String) (ts : List String),
      ts = ["double", "string"] ∨ ts = ["string", "double"] →
      resolveDtype column ts = .ok "string") := by
  refine ⟨?_, ?_, ?_⟩
  · intro column ts hlen hnum
    have hne : ts ≠ [] := by
      intro h0
      rw [h0] at hlen
      simp at hlen
    have hnum' : areAllNumberTypes ts = true :=
      List.all_eq_true.2 (fun t ht => contains_iff.2 (hnum t ht))
    obtain ⟨w, hw⟩ := getLargest_isSome hne hnum'
    refine ⟨w, ?_, contains_iff.1 (List.find?_some hw),
      fun t ht => getLargest_min hw t ht (hnum t ht)⟩
    simp only [resolveDtype]
    rw [if_pos hnum', hw]
  · rintro column ts (rfl | rfl) <;> rfl
  · rintro column ts (rfl | rfl) <;> rfl

theorem c1_type_promotion_witness :
    resolveDtype "price" ["int", "double"] = .ok "double" :=
  c1_type_promotion.2.1 "price" ["int", "double"] (Or.inl rfl)

/-! ### Claim C9 -/

/-- C9: passing a single DataFrame instead of a collection raises the
unsupported-input error of line 145, and a batch whose elements are not
all DataFrames raises the per-element unsupported-input error of
lines 176-181 (naming the offending type), provided the earlier empty
and keys-length checks pass. -/
theorem c9_unsupported_input :
    (∀ (f : Frame) (keys : Option (List PyKey)) (names : PyNames)
       (order : List (String × String)),
      concat (.singleDF f) keys names order = .error (.notIterable "DataFrame"))
  ∧ (∀ (elems : List Elem) (keys : Option (List PyKey)) (names : PyNames)
       (order : List (String × String)) (t : String),
      elems ≠ [] →
      ¬(keysTruthy keys = true ∧ elems.length ≠ (keys.getD []).length) →
      firstNonDF elems = some t →
      concat (.seq elems) keys names order = .error (.notADataFrame t)) := by
  refine ⟨fun f keys names order => rfl, ?_⟩
  intro elems keys names order t hne hpre hfirst
  simp only [concat]
  rw [if_neg (fun h0 => hne (List.length_eq_zero.1 h0)),
    if_neg (by
      rw [Bool.and_eq_true]
      rintro ⟨h1, h2⟩
      exact hpre ⟨h1, by simpa using h2⟩)]
  simp only [concatFrames, hfirst]

theorem c9_unsupported_input_witness :
    concat (.seq [Elem.df wfA, Elem.other "int"]) Option.none PyNames.none [] =
      .error (.notADataFrame "int") :=
  c9_unsupported_input.2 [Elem.df wfA, Elem.other "int"] Option.none PyNames.none [] "int"
    (by decide) (by decide) rfl

/-! ### Claim C8 -/

/-- C8: on mapping input the provenance keys default to the mapping's own
keys (in insertion order), and an explicit key sequence both selects the
subset of tables and fixes their order: in both cases the call behaves
exactly like the corresponding sequence call. -/
theorem c8_mapping_keys :
    (∀ (pairs : List (PyKey × Elem)) (names : PyNames) (order : List (String × String)),
      (pairs.map Prod.fst).Nodup → names ≠ PyNames.none →
      concat (.mapping pairs) Option.none names order =
        concat (.seq (pairs.map Prod.snd)) (Option.some (pairs.map Prod.fst)) names order)
  ∧ (∀ (pairs : List (PyKey × Elem)) (ks : List PyKey) (elems : List Elem)
       (names : PyNames) (order : List (String × String)),
      names ≠ PyNames.none → ks ≠ [] → mappingSelect pairs ks = some elems →
      concat (.mapping pairs) (Option.some ks) names order =
        concat (.seq elems) (Option.some ks) names order) := by
  constructor
  · intro pairs names order hnodup hnames
    by_cases hp : pairs = []
    · subst hp
      rfl
    · have hlen : pairs.length ≠ 0 := fun h => hp (List.length_eq_zero.1 h)
      have hL : concat (.mapping pairs) Option.none names order =
          concatFrames (pairs.map Prod.snd) (Option.some (pairs.map Prod.fst)) names order := by
        simp only [concat]
        rw [if_neg hlen, if_neg hnames,
          show Option.getD Option.none (pairs.map Prod.fst) = pairs.map Prod.fst from rfl,
          mappingSelect_self pairs hnodup]
      have hR : concat (.seq (pairs.map Prod.snd)) (Option.some (pairs.map Prod.fst))
          names order =
          concatFrames (pairs.map Prod.snd) (Option.some (pairs.map Prod.fst)) names order := by
        simp only [concat]
        rw [if_neg (by rw [List.length_map]; exact hlen),
          if_neg (by
            rw [Bool.and_eq_true]
            rintro ⟨_, h2⟩
            simp [List.length_map] at h2)]
      exact hL.trans hR.symm
  · intro pairs ks elems names order hnames hks hsel
    have hpne : pairs.length ≠ 0 := by
      intro h0
      have hp : pairs = [] := List.length_eq_zero.1 h0
      subst hp
      cases ks with
      | nil => exact hks rfl
      | cons k rest =>
        rw [mappingSelect, show lookupMapping [] k = Option.none from rfl] at hsel
        exact Option.noConfusion hsel
    have helems : elems.length = ks.length := mappingSelect_length pairs ks elems hsel
    have hL : concat (.mapping pairs) (Option.some ks) names order =
        concatFrames elems (Option.some ks) names order := by
      simp only [concat]
      rw [if_neg hpne, if_neg hnames,
        show Option.getD (Option.some ks) (pairs.map Prod.fst) = ks from rfl, hsel]
    have hR : concat (.seq elems) (Option.some ks) names order =
        concatFrames elems (Option.some ks) names order := by
      simp only [concat]
      rw [if_neg (by
          rw [helems]
          exact fun h0 => hks (List.length_eq_zero.1 h0)),
        if_neg (by
          rw [Bool.and_eq_true]
          rintro ⟨_, h2⟩
          rw [show Option.getD (Option.some ks) [] = ks from rfl] at h2
          simp [helems] at h2)]
    exact hL.trans hR.symm

theorem c8_mapping_keys_witness :
    concat (.mapping [(PyKey.scalar "web", Elem.df wfA), (PyKey.scalar "scanner", Elem.df wfB)])
      Option.none (PyNames.str "source") wOrder =
    concat (.seq [Elem.df wfA, Elem.df wfB])
      (Option.some [PyKey.scalar "web", PyKey.scalar "scanner"]) (PyNames.str "source")
      wOrder :=
  c8_mapping_keys.1 [(PyKey.scalar "web", Elem.df wfA), (PyKey.scalar "scanner", Elem.df wfB)]
    (PyNames.str "source") wOrder (by decide) (by decide)

/-! ### Claim C7 -/

theorem concat_keyNames_error (frames : List Frame) (ks : List PyKey) (nm : List String)
    (order : List (String × String)) (framesR : List Frame)
    (hlen : frames.length = ks.length) (hnm : nm ≠ [])
    (hrec : (if compareSchemas frames then Except.ok frames
             else reconcileFrames order frames) = .ok framesR)
    (hbad : ∃ k ∈ ks, (listConvertKey k).length ≠ nm.length) :
    concat (.seq (frames.map Elem.df)) (Option.some ks) (PyNames.list nm) order =
      .error .keyNamesLengthMismatch := by
  have hksne : ks ≠ [] := by
    obtain ⟨k, hk, _⟩ := hbad
    exact List.ne_nil_of_mem hk
  have hfne : frames ≠ [] := by
    intro h0
    subst h0
    exact hksne (List.length_eq_zero.1 hlen.symm)
  rw [concat_seq_unfold frames (Option.some ks) (PyNames.list nm) order hfne
    (fun hq => hq.2 (by simpa using hlen)), hrec]
  show assembleTagged (PyNames.list nm) (Option.some ks) framesR = _
  have hall : ((ks.map listConvertKey).all (fun k => k.length = nm.length)) = false := by
    obtain ⟨k, hk, hkl⟩ := hbad
    rw [Bool.eq_false_iff]
    intro hallt
    exact hkl (of_decide_eq_true ((List.all_eq_true.1 hallt) (listConvertKey k)
      (List.mem_map_of_mem listConvertKey hk)))
  rw [assembleTagged_tags nm hnm ks framesR, hall]
  rfl

/-- C7 (counterexample): a batch with an unresolvable boolean/date type
conflict and mismatched key/tag-name arities raises the type-conflict
error, not an arity-mismatch error, because reconciliation runs before the
arity checks of lines 211-218. -/
theorem c7_counterexample :
    IsSetOrder wOrderBD [wfBool, wfDate] ∧
    (listConvertKey (PyKey.multi ["y", "z"])).length ≠
      (listConvertNames (PyNames.list ["k"])).length ∧
    concat (.seq [.df wfBool, .df wfDate])
      (Option.some [PyKey.multi ["x"], PyKey.multi ["y", "z"]]) (PyNames.list ["k"])
      wOrderBD = .error (.typeConflict "a" ["boolean", "date"]) ∧
    concat (.seq [.df wfBool, .df wfDate])
      (Option.some [PyKey.multi ["x"], PyKey.multi ["y", "z"]]) (PyNames.list ["k"])
      wOrderBD ≠ .error .keyNamesLengthMismatch ∧
    concat (.seq [.df wfBool, .df wfDate])
      (Option.some [PyKey.multi ["x"], PyKey.multi ["y", "z"]]) (PyNames.list ["k"])
      wOrderBD ≠ .error .unequalKeyLengths :=
  ⟨by decide, by decide, by decide, by decide, by decide⟩

/-- C7 (amended): the keys-versus-tables count check of line 155 fires
unconditionally for non-empty sequence input with truthy keys; the
tag-name/key-arity checks of lines 211-218 fire only after element
validation and schema reconciliation succeed (an unresolvable conflict
preempts them), and then a key of the wrong arity, or keys of unequal
arity amongst themselves, always surface as the names-arity error of
line 212. -/
theorem c7_arity_errors :
    (∀ (elems : List Elem) (ks : List PyKey) (names : PyNames)
       (order : List (String × String)),
      elems ≠ [] → ks ≠ [] → elems.length ≠ ks.length →
      concat (.seq elems) (Option.some ks) names order = .error .keysLengthMismatch)
  ∧ (∀ (frames : List Frame) (ks : List PyKey) (nm : List String)
       (order : List (String × String)) (framesR : List Frame),
      frames.length = ks.length → nm ≠ [] →
      (if compareSchemas frames then Except.ok frames
        else reconcileFrames order frames) = .ok framesR →
      (∃ k ∈ ks, (listConvertKey k).length ≠ nm.length) →
      concat (.seq (frames.map Elem.df)) (Option.some ks) (PyNames.list nm) order =
        .error .keyNamesLengthMismatch)
  ∧ (∀ (frames : List Frame) (ks : List PyKey) (nm : List String)
       (order : List (String × String)) (framesR : List Frame),
      frames.length = ks.length → nm ≠ [] →
      (if compareSchemas frames then Except.ok frames
        else reconcileFrames order frames) = .ok framesR →
      (∃ k₁ ∈ ks, ∃ k₂ ∈ ks, (listConvertKey k₁).length ≠ (listConvertKey k₂).length) →
      concat (.seq (frames.map Elem.df)) (Option.some ks) (PyNames.list nm) order =
        .error .keyNamesLengthMismatch) := by
  refine ⟨?_, ?_, ?_⟩
  · intro elems ks names order hne hks hlen
    simp only [concat]
    rw [if_neg (fun h0 => hne (List.length_eq_zero.1 h0)), if_pos (by
      rw [Bool.and_eq_true]
      refine ⟨?_, decide_eq_true (by simpa using hlen)⟩
      cases ks with
      | nil => exact absurd rfl hks
      | cons k t => rfl)]
  · exact fun frames ks nm order framesR hlen hnm hrec hbad =>
      concat_keyNames_error frames ks nm order framesR hlen hnm hrec hbad
  · intro frames ks nm order framesR hlen hnm hrec hbad
    obtain ⟨k₁, h₁, k₂, h₂, hne⟩ := hbad
    by_cases hq : (listConvertKey k₁).length = nm.length
    · exact concat_keyNames_error frames ks nm order framesR hlen hnm hrec
        ⟨k₂, h₂, fun h => hne (hq.trans h.symm)⟩
    · exact concat_keyNames_error frames ks nm order framesR hlen hnm hrec ⟨k₁, h₁, hq⟩

theorem c7_arity_errors_witness :
    concat (.seq [.df wfA, .df wfB, .df wfA])
      (Option.some [PyKey.multi ["scanner"], PyKey.multi ["web"]])
      (PyNames.list ["source"]) wOrder = .error .keysLengthMismatch :=
  c7_arity_errors.1 [.df wfA, .df wfB, .df wfA]
    [PyKey.multi ["scanner"], PyKey.multi ["web"]] (PyNames.list ["source"]) wOrder
    (by decide) (by decide) (by decide)

/-! ### Claim C10 -/

theorem forall₂_mem_right {α β : Type} {R : α → β → Prop} :
    ∀ {l : List α} {l' : List β}, List.Forall₂ R l l' → ∀ b ∈ l', ∃ a ∈ l, R a b := by
  intro l l' h
  induction h with
  | nil =>
    intro b hb
    simp at hb
  | cons hr hrest ih =>
    intro b hb
    rcases List.mem_cons.1 hb with rfl | hb'
    · exact ⟨_, List.mem_cons_self _ _, hr⟩
    · obtain ⟨a, ha, hra⟩ := ih b hb'
      exact ⟨a, List.mem_cons_of_mem _ ha, hra⟩

/-- C10 (counterexample): with both keys and names omitted, `concat` can
still raise: a boolean/date conflict surfaces as the type-conflict error
of `_ensure_consistent_schema`, so the call is not error-free. -/
theorem c10_counterexample :
    IsSetOrder wOrderBD [wfBool, wfDate] ∧
    concat (.seq [.df wfBool, .df wfDate]) Option.none PyNames.none wOrderBD =
      .error (.typeConflict "a" ["boolean", "date"]) :=
  ⟨by decide, by decide⟩

/-- C10 (amended): with keys and names omitted, provided every schema
conflict is resolvable (all-numeric or containing string), `concat`
succeeds and returns the name-based union of the reconciled frames with
no tag columns added: the output's column names are exactly the original
column names observed across the batch. -/
theorem c10_no_tags_union :
    ∀ (f0 : Frame) (rest : List Frame) (order : List (String × String)),
    (∀ f ∈ f0 :: rest, f.WF) → IsSetOrder order (f0 :: rest) →
    (∀ p ∈ order, ¬ stepResolveFails order p.1) →
    ∃ out,
      concat (.seq ((f0 :: rest).map Elem.df)) Option.none PyNames.none order = .ok out ∧
      (∀ n, n ∈ out.columns ↔ ∃ f ∈ f0 :: rest, n ∈ f.columns) := by
  intro f0 rest order hWF ho hres
  have hstep1 := concat_seq_unfold (f0 :: rest) Option.none PyNames.none order (by simp)
    (by rintro ⟨h1, _⟩; exact Bool.noConfusion h1)
  by_cases hcs : compareSchemas (f0 :: rest) = true
  · have hconcat : concat (.seq ((f0 :: rest).map Elem.df)) Option.none PyNames.none order =
        reduceUnion (f0 :: rest) := by
      rw [hstep1, if_pos hcs]
      rfl
    have hcond : ∀ x ∈ rest,
        x.cols.length = f0.cols.length ∧ ∀ n ∈ f0.columns, n ∈ x.columns := by
      intro x hx
      have hss := (compareSchemas_cons f0 rest).1 hcs x (List.mem_cons_of_mem _ hx)
      have hiff : ∀ p : String × String, p ∈ x.cols ↔ p ∈ f0.cols :=
        fun p => ⟨fun h => (sameSchemaSet_iff.1 hss).1 p h,
          fun h => (sameSchemaSet_iff.1 hss).2 p h⟩
      refine ⟨length_eq_of_nodup_mem
        (List.Nodup.of_map Prod.fst (hWF x (List.mem_cons_of_mem _ hx)).1)
        (List.Nodup.of_map Prod.fst (hWF f0 (List.mem_cons_self _ _)).1) hiff, ?_⟩
      intro n hn
      obtain ⟨p, hp, rfl⟩ := List.mem_map.1 hn
      exact List.mem_map_of_mem Prod.fst ((hiff p).2 hp)
    obtain ⟨out, hout⟩ := reduceUnion_fold_ok_of rest f0 hcond
    have hcols := (reduceUnion_fold_ok rest f0 out hout).1
    refine ⟨out, by rw [hconcat]; exact hout, ?_⟩
    intro n
    have hmm : out.columns = f0.columns := congrArg (List.map Prod.fst) hcols
    rw [hmm]
    constructor
    · intro hn
      exact ⟨f0, List.mem_cons_self _ _, hn⟩
    · rintro ⟨f, hf, hn⟩
      have hss := (compareSchemas_cons f0 rest).1 hcs f hf
      obtain ⟨p, hp, rfl⟩ := List.mem_map.1 hn
      exact List.mem_map_of_mem Prod.fst ((sameSchemaSet_iff.1 hss).1 p hp)
  · obtain ⟨framesR, hrec⟩ := reconcileFrames_ok_of order (f0 :: rest)
      (fun f hf => ensure_ok_of f order hres)
    have hfa := reconcileFrames_ok order (f0 :: rest) framesR hrec
    obtain ⟨g0, grest, hg0, hgrest, rfl⟩ := List.forall₂_cons_left_iff.1 hfa
    have hm0 : ∀ n, n ∈ g0.columns ↔ n ∈ order.map Prod.fst :=
      ensure_ok_mem_order (ho.2.2 f0 (List.mem_cons_self _ _)) hg0
    have hnd0 : g0.columns.Nodup :=
      ensureLoop_ok_nodup order _ f0 g0 hg0 (hWF f0 (List.mem_cons_self _ _)).1
    have hcond : ∀ x ∈ grest,
        x.cols.length = g0.cols.length ∧ ∀ n ∈ g0.columns, n ∈ x.columns := by
      intro x hx
      obtain ⟨f, hf, hex⟩ := forall₂_mem_right hgrest x hx
      have hmx : ∀ n, n ∈ x.columns ↔ n ∈ order.map Prod.fst :=
        ensure_ok_mem_order (ho.2.2 f (List.mem_cons_of_mem _ hf)) hex
      have hndx : x.columns.Nodup :=
        ensureLoop_ok_nodup order _ f x hex (hWF f (List.mem_cons_of_mem _ hf)).1
      have hiff : ∀ n, n ∈ x.columns ↔ n ∈ g0.columns :=
        fun n => (hmx n).trans (hm0 n).symm
      refine ⟨?_, fun n hn => (hiff n).2 hn⟩
      have := length_eq_of_nodup_mem hndx hnd0 hiff
      simpa [Frame.columns] using this
    obtain ⟨out, hout⟩ := reduceUnion_fold_ok_of grest g0 hcond
    have hcols := (reduceUnion_fold_ok grest g0 out hout).1
    have hconcat : concat (.seq ((f0 :: rest).map Elem.df)) Option.none PyNames.none order =
        reduceUnion (g0 :: grest) := by
      rw [hstep1, if_neg hcs, hrec]
      rfl
    refine ⟨out, by rw [hconcat]; exact hout, ?_⟩
    intro n
    have hmm : out.columns = g0.columns := congrArg (List.map Prod.fst) hcols
    rw [hmm, hm0 n]
    constructor
    · intro hn
      obtain ⟨p, hp, rfl⟩ := List.mem_map.1 hn
      obtain ⟨f, hf, hpf⟩ := ho.2.1 p hp
      exact ⟨f, hf, List.mem_map_of_mem Prod.fst hpf⟩
    · rintro ⟨f, hf, hn⟩
      obtain ⟨p, hp, rfl⟩ := List.mem_map.1 hn
      exact List.mem_map_of_mem Prod.fst (ho.2.2 f hf p hp)

theorem c10_no_tags_union_witness :
    ∃ out,
      concat (.seq ([wfA, wfB].map Elem.df)) Option.none PyNames.none wOrder = .ok out ∧
      (∀ n, n ∈ out.columns ↔ ∃ f ∈ [wfA, wfB], n ∈ f.columns) :=
  c10_no_tags_union wfA [wfB] wOrder (by decide) (by decide) (by decide)

/-! ### Claim C2 -/

/-- C2: whenever some column's observed type set has more than one
element, is not all-numeric and contains no string, `concat` fails with
the type-conflict error carrying a conflicted column's name and its
observed types, and the failure is produced by the schema-reconciliation
stage itself — `concat` returns that stage's error unchanged, so no union
is performed and no partial output exists. -/
theorem c2_unresolvable_conflict :
    ∀ (f0 : Frame) (rest : List Frame) (keys : Option (List PyKey)) (names : PyNames)
      (order : List (String × String)),
    (f0.cols.map Prod.fst).Nodup →
    IsSetOrder order (f0 :: rest) →
    ¬(keysTruthy keys = true ∧ (f0 :: rest).length ≠ (keys.getD []).length) →
    (∃ c, stepResolveFails order c) →
    ∃ c, stepResolveFails order c ∧
      reconcileFrames order (f0 :: rest) =
        .error (.typeConflict c (getColumnTypes order c)) ∧
      concat (.seq ((f0 :: rest).map Elem.df)) keys names order =
        .error (.typeConflict c (getColumnTypes order c)) := by
  rintro f0 rest keys names order hnd ho hpre ⟨c, hc⟩
  obtain ⟨c', herr, hf'⟩ := ensure_error_of f0 order hnd ho.1 hc
  have hcs : compareSchemas (f0 :: rest) = false :=
    compareSchemas_eq_false hnd ho hc.1
  have hrec : reconcileFrames order (f0 :: rest) =
      .error (.typeConflict c' (getColumnTypes order c')) :=
    reconcileFrames_error_head order f0 rest herr
  refine ⟨c', hf', hrec, ?_⟩
  rw [concat_seq_unfold (f0 :: rest) keys names order (by simp) hpre,
    if_neg (fun ht => by rw [hcs] at ht; exact Bool.noConfusion ht), hrec]

theorem c2_unresolvable_conflict_witness :
    concat (.seq ([wfBool, wfDate].map Elem.df)) Option.none PyNames.none wOrderBD =
      .error (.typeConflict "a" (getColumnTypes wOrderBD "a")) := by
  obtain ⟨c, hc, hrec, hcc⟩ := c2_unresolvable_conflict wfBool [wfDate] Option.none
    PyNames.none wOrderBD (by decide) (by decide) (by decide) ⟨"a", by decide⟩
  have hconc : concat (.seq ([wfBool, wfDate].map Elem.df)) Option.none PyNames.none
      wOrderBD = .error (.typeConflict "a" ["boolean", "date"]) := by decide
  rw [show getColumnTypes wOrderBD "a" = ["boolean", "date"] from by decide]
  exact hconc

/-! ### Claim C3 -/

theorem mem_allPairs_iff {frames : List Frame} {p : String × String} :
    p ∈ allPairs frames ↔ ∃ f ∈ frames, p ∈ f.cols := by
  simp [allPairs]

/-- C3 (counterexample): in the batch `[c3A, c3B]` every column name maps
to exactly one dtype, yet `_compare_schemas` reports the schemas unequal
(`c3B` lacks "name", a `NaN` in the schemas dataframe), reconciliation
runs and null-fills the column, and skipping it would make the union
fail; so the fast path is not taken although each name has one type. -/
theorem c3_counterexample :
    IsSetOrder c3Order [c3A, c3B] ∧
    ((allPairs [c3A, c3B]).all (fun p =>
      (allPairs [c3A, c3B]).all (fun q => p.1 ≠ q.1 || p.2 = q.2))) = true ∧
    compareSchemas [c3A, c3B] = false ∧
    ensureConsistentSchema c3B c3Order =
      .ok ⟨[("id", "int"), ("name", "string")], [[.prim "int" 2, .null]]⟩ ∧
    reduceUnion [c3A, c3B] = .error .unionLengthMismatch ∧
    concat (.seq [.df c3A, .df c3B]) Option.none PyNames.none c3Order =
      .ok ⟨[("id", "int"), ("name", "string")],
           [[.prim "int" 1, .str "u"], [.prim "int" 2, .null]]⟩ :=
  ⟨by decide, by decide, by decide, by decide, by decide, by decide⟩

/-- C3 (amended): the fast path is taken exactly when every table's
column-name-to-dtype mapping coincides with the first table's:
`_compare_schemas` returns true iff every name has a single observed
dtype and every observed column name is present in every table; a
missing column forces reconciliation even when each name has one type. -/
theorem c3_schema_equality :
    ∀ (f0 : Frame) (rest : List Frame),
    (∀ f ∈ f0 :: rest, (f.cols.map Prod.fst).Nodup) →
    (compareSchemas (f0 :: rest) = true ↔
      ((∀ (c d₁ d₂ : String), (c, d₁) ∈ allPairs (f0 :: rest) →
          (c, d₂) ∈ allPairs (f0 :: rest) → d₁ = d₂)
       ∧ (∀ f ∈ f0 :: rest, ∀ p ∈ allPairs (f0 :: rest), p.1 ∈ f.columns))) := by
  intro f0 rest hnd
  constructor
  · intro htrue
    have hall := (compareSchemas_cons f0 rest).1 htrue
    constructor
    · intro c d₁ d₂ h₁ h₂
      obtain ⟨f₁, hf₁, hp₁⟩ := mem_allPairs_iff.1 h₁
      obtain ⟨f₂, hf₂, hp₂⟩ := mem_allPairs_iff.1 h₂
      exact nodup_keys_eq f0.cols (hnd f0 (List.mem_cons_self _ _)) c d₁ d₂
        ((sameSchemaSet_iff.1 (hall f₁ hf₁)).1 _ hp₁)
        ((sameSchemaSet_iff.1 (hall f₂ hf₂)).1 _ hp₂)
    · intro f hf p hp
      obtain ⟨f₁, hf₁, hp₁⟩ := mem_allPairs_iff.1 hp
      have h0 : p ∈ f0.cols := (sameSchemaSet_iff.1 (hall f₁ hf₁)).1 p hp₁
      exact List.mem_map_of_mem Prod.fst ((sameSchemaSet_iff.1 (hall f hf)).2 p h0)
  · rintro ⟨huniq, hpres⟩
    rw [compareSchemas_cons]
    intro f hf
    rw [sameSchemaSet_iff]
    have key : ∀ (g₁ g₂ : Frame), g₁ ∈ f0 :: rest → g₂ ∈ f0 :: rest →
        ∀ p ∈ g₁.cols, p ∈ g₂.cols := by
      intro g₁ g₂ hg₁ hg₂ p hp
      have hpa : p ∈ allPairs (f0 :: rest) := mem_allPairs_iff.2 ⟨g₁, hg₁, hp⟩
      have hcol : p.1 ∈ g₂.columns := hpres g₂ hg₂ p hpa
      obtain ⟨d', hd', hmem⟩ := dtypeOf_mem g₂.cols p.1 hcol
      have hda : (p.1, d') ∈ allPairs (f0 :: rest) := mem_allPairs_iff.2 ⟨g₂, hg₂, hmem⟩
      have hdp : d' = p.2 := huniq p.1 d' p.2 hda hpa
      exact (show ((p.1, p.2) : String × String) ∈ g₂.cols from hdp ▸ hmem)
    exact ⟨fun p hp => key f f0 hf (List.mem_cons_self _ _) p hp,
           fun p hp => key f0 f (List.mem_cons_self _ _) hf p hp⟩

theorem c3_schema_equality_witness :
    compareSchemas [wfA, wfA] = true :=
  (c3_schema_equality wfA [wfA] (by decide)).2
    ⟨by
      intro c d₁ d₂ h₁ h₂
      simp [allPairs, wfA] at h₁ h₂
      rcases h₁ with ⟨hc1, rfl⟩ | ⟨hc1, rfl⟩ | ⟨hc1, rfl⟩ | ⟨hc1, rfl⟩ <;>
        rcases h₂ with ⟨hc2, rfl⟩ | ⟨hc2, rfl⟩ | ⟨hc2, rfl⟩ | ⟨hc2, rfl⟩ <;>
        first
          | rfl
          | (rw [hc1] at hc2; exact absurd hc2 (by decide)),
     by
      intro f hf p hp
      have hfa : f = wfA := by
        rcases List.mem_cons.1 hf with h | h
        · exact h
        · rcases List.mem_cons.1 h with h' | h'
          · exact h'
          · simp at h'
      subst hfa
      simp [allPairs, wfA] at hp
      rcases hp with rfl | rfl | rfl | rfl <;> decide⟩

/-! ### Destructuring a successful tagged `concat` -/

/-- Splitting the schema-comparison branch of a successful run. -/
theorem reconcile_if_ok {order : List (String × String)} {frames framesR : List Frame}
    (hcs : (if compareSchemas frames then Except.ok frames
            else reconcileFrames order frames) = .ok framesR) :
    (compareSchemas frames = true ∧ framesR = frames) ∨
    (compareSchemas frames = false ∧
      List.Forall₂ (fun f g => ensureConsistentSchema f order = .ok g) frames framesR) := by
  by_cases hb : compareSchemas frames = true
  · rw [if_pos hb] at hcs
    injection hcs with hcs
    exact Or.inl ⟨hb, hcs.symm⟩
  · rw [if_neg hb] at hcs
    exact Or.inr ⟨Bool.eq_false_iff.2 hb, reconcileFrames_ok order frames framesR hcs⟩

/-- A successful tagged call passed the key-arity prechecks, reconciled
the batch, and reduced the tagged frames. -/
theorem concat_tags_ok_destruct (f0 : Frame) (rest : List Frame) (ks : List PyKey)
    (nm : List String) (order : List (String × String)) (out : Frame)
    (hnm : nm ≠ [])
    (hok : concat (.seq ((f0 :: rest).map Elem.df)) (Option.some ks) (PyNames.list nm)
      order = .ok out) :
    ∃ framesR,
      (if compareSchemas (f0 :: rest) then Except.ok (f0 :: rest)
       else reconcileFrames order (f0 :: rest)) = .ok framesR ∧
      (f0 :: rest).length = ks.length ∧
      ((ks.map listConvertKey).all (fun k => k.length = nm.length)) = true ∧
      reduceUnion (tagAll nm (ks.map listConvertKey) framesR) = .ok out := by
  by_cases hks : ks = []
  · subst hks
    exfalso
    have hpre : ¬(keysTruthy (Option.some ([] : List PyKey)) = true ∧
        (f0 :: rest).length ≠ ((Option.some ([] : List PyKey)).getD []).length) := by
      rintro ⟨h1, _⟩
      exact Bool.noConfusion h1
    rw [concat_seq_unfold (f0 :: rest) (Option.some []) (PyNames.list nm) order
      (by simp) hpre] at hok
    cases hcs : (if compareSchemas (f0 :: rest) then Except.ok (f0 :: rest)
        else reconcileFrames order (f0 :: rest)) with
    | error e =>
      rw [hcs] at hok
      exact Except.noConfusion hok
    | ok framesR =>
      rw [hcs] at hok
      replace hok : assembleTagged (PyNames.list nm) (Option.some []) framesR = .ok out := hok
      rw [assembleTagged_tags nm hnm [] framesR] at hok
      exact Except.noConfusion hok
  · have hkst : keysTruthy (Option.some ks) = true := by
      cases ks with
      | nil => exact absurd rfl hks
      | cons k t => rfl
    have hpre : ¬(keysTruthy (Option.some ks) = true ∧
        (f0 :: rest).length ≠ ((Option.some ks).getD []).length) := by
      rintro ⟨-, hlen⟩
      have hfire : concat (.seq ((f0 :: rest).map Elem.df)) (Option.some ks)
          (PyNames.list nm) order = .error .keysLengthMismatch := by
        have hcond : (keysTruthy (Option.some ks) &&
            decide (((f0 :: rest).map Elem.df).length ≠
              ((Option.some ks).getD []).length)) = true := by
          rw [Bool.and_eq_true]
          refine ⟨hkst, decide_eq_true ?_⟩
          rw [List.length_map]
          exact hlen
        simp only [concat]
        rw [if_neg (by simp), if_pos hcond]
      rw [hfire] at hok
      exact Except.noConfusion hok
    rw [concat_seq_unfold (f0 :: rest) (Option.some ks) (PyNames.list nm) order
      (by simp) hpre] at hok
    have hlen : (f0 :: rest).length = ks.length := by
      by_contra hq
      exact hpre ⟨hkst, hq⟩
    cases hcs : (if compareSchemas (f0 :: rest) then Except.ok (f0 :: rest)
        else reconcileFrames order (f0 :: rest)) with
    | error e =>
      rw [hcs] at hok
      exact Except.noConfusion hok
    | ok framesR =>
      rw [hcs] at hok
      replace hok : assembleTagged (PyNames.list nm) (Option.some ks) framesR = .ok out := hok
      rw [assembleTagged_tags nm hnm ks framesR] at hok
      by_cases hall : ((ks.map listConvertKey).all (fun k => k.length = nm.length)) = true
      · have hall2 : ((ks.map listConvertKey).all
            (fun k => k.length = ((ks.map listConvertKey).headD []).length)) = true := by
          rw [List.all_eq_true] at hall ⊢
          intro kl hkl
          have h1 : kl.length = nm.length := of_decide_eq_true (hall kl hkl)
          have hhead : ((ks.map listConvertKey).headD []).length = nm.length := by
            cases ks with
            | nil => exact absurd rfl hks
            | cons k t =>
              exact of_decide_eq_true (hall (listConvertKey k) (by simp))
          exact decide_eq_true (h1.trans hhead.symm)
        rw [if_neg (by rw [hall]; simp), if_neg (by rw [hall2]; simp)] at hok
        exact ⟨framesR, rfl, hlen, hall, hok⟩
      · rw [if_pos (by rw [Bool.eq_false_iff.2 hall]; rfl)] at hok
        exact Except.noConfusion hok

/-- Packaging of `concat_tags_ok_destruct`: reconciliation relation, a
first key list matching the tag arity, and the reduced union. -/
theorem concat_tags_ok_scaffold (f0 : Frame) (rest : List Frame) (ks : List PyKey)
    (nm : List String) (order : List (String × String)) (out : Frame)
    (hnm : nm ≠ [])
    (hok : concat (.seq ((f0 :: rest).map Elem.df)) (Option.some ks) (PyNames.list nm)
      order = .ok out) :
    ∃ framesR kl0 klrest,
      ((compareSchemas (f0 :: rest) = true ∧ framesR = f0 :: rest) ∨
       (compareSchemas (f0 :: rest) = false ∧
         List.Forall₂ (fun f g => ensureConsistentSchema f order = .ok g)
           (f0 :: rest) framesR)) ∧
      ks.map listConvertKey = kl0 :: klrest ∧
      nm.length = kl0.length ∧
      (kl0 :: klrest).length = framesR.length ∧
      reduceUnion (tagAll nm (kl0 :: klrest) framesR) = .ok out := by
  obtain ⟨framesR, hcs, hlen, hall, hunion⟩ :=
    concat_tags_ok_destruct f0 rest ks nm order out hnm hok
  have hrel := reconcile_if_ok hcs
  obtain ⟨kl0, klrest, hkl⟩ : ∃ kl0 klrest, ks.map listConvertKey = kl0 :: klrest := by
    cases ks with
    | nil => simp at hlen
    | cons k t => exact ⟨listConvertKey k, t.map listConvertKey, rfl⟩
  have hnmlen : nm.length = kl0.length := by
    have hx := List.all_eq_true.1 hall kl0 (by rw [hkl]; exact List.mem_cons_self _ _)
    exact (of_decide_eq_true hx).symm
  have hframeslen : framesR.length = (f0 :: rest).length := by
    rcases hrel with ⟨_, rfl⟩ | ⟨_, hfa⟩
    · rfl
    · exact hfa.length_eq.symm
  have hkllen : (kl0 :: klrest).length = framesR.length := by
    rw [← hkl, List.length_map, ← hlen, hframeslen]
  rw [hkl] at hunion
  exact ⟨framesR, kl0, klrest, hrel, hkl, hnmlen, hkllen, hunion⟩

/-- Tagging is invisible to any frame-level observation that ignores the
prepended tag columns. -/
theorem tagAll_map_eq {γ : Type} (nm : List String) (kls : List (List String))
    (gs : List Frame) (hlen : gs.length ≤ kls.length)
    (g : Frame → γ) (hg : ∀ f kl, g (tagFrame f nm kl) = g f) :
    (tagAll nm kls gs).map g = gs.map g := by
  have h1 : (kls.zip gs).map (fun pf : List String × Frame => g (tagFrame pf.2 nm pf.1)) =
      (kls.zip gs).map (fun pf => g pf.2) :=
    List.map_eq_map_iff.mpr (fun pf _ => hg pf.2 pf.1)
  have h2 : (kls.zip gs).map (fun pf : List String × Frame => g pf.2) = gs.map g := by
    rw [show (fun pf : List String × Frame => g pf.2) = (g ∘ Prod.snd) from rfl,
      ← List.map_map, List.map_snd_zip kls gs hlen]
  calc (tagAll nm kls gs).map g
      = (kls.zip gs).map (fun pf : List String × Frame => g (tagFrame pf.2 nm pf.1)) := by
        rw [tagAll, List.map_map]
        rfl
    _ = (kls.zip gs).map (fun pf => g pf.2) := h1
    _ = gs.map g := h2

/-- Columns of the reduced union of a tagged batch: the head frame's tag
block followed by its reconciled columns. -/
theorem tagged_union_cols (nm kl0 : List String) (klrest : List (List String))
    (g0 : Frame) (grest : List Frame) (out : Frame)
    (hunion : reduceUnion (tagAll nm (kl0 :: klrest) (g0 :: grest)) = .ok out) :
    out.cols = (nm.zip kl0).map (fun np => (np.1, "string")) ++ g0.cols := by
  have hu : List.foldlM unionByName (tagFrame g0 nm kl0) (tagAll nm klrest grest) =
      .ok out := hunion
  have hfold := reduceUnion_fold_ok (tagAll nm klrest grest) (tagFrame g0 nm kl0) out hu
  rw [hfold.1, tagFrame_shape]

/-- Row count of the reduced union of a tagged batch. -/
theorem tagged_union_rows_length (nm kl0 : List String) (klrest : List (List String))
    (g0 : Frame) (grest : List Frame) (out : Frame)
    (hlen : grest.length ≤ klrest.length)
    (hunion : reduceUnion (tagAll nm (kl0 :: klrest) (g0 :: grest)) = .ok out) :
    out.rows.length = ((g0 :: grest).map (fun g => g.rows.length)).sum := by
  have hu : List.foldlM unionByName (tagFrame g0 nm kl0) (tagAll nm klrest grest) =
      .ok out := hunion
  have hfold := reduceUnion_fold_ok (tagAll nm klrest grest) (tagFrame g0 nm kl0) out hu
  rw [hfold.2.2, tagFrame_rows_length,
    tagAll_map_eq nm klrest grest hlen (fun g => g.rows.length)
      (fun f kl => tagFrame_rows_length f nm kl),
    show ((g0 :: grest).map (fun g => g.rows.length)) =
      g0.rows.length :: grest.map (fun g => g.rows.length) from rfl,
    List.sum_cons]

/-- A non-tag column of the reduced union concatenates the per-frame
column values in batch order. -/
theorem tagged_union_colValues (nm kl0 : List String) (klrest : List (List String))
    (g0 : Frame) (grest : List Frame) (out : Frame) (c : String)
    (hlen : grest.length ≤ klrest.length)
    (hnmlen : nm.length = kl0.length)
    (hc : c ∉ nm) (hcg : c ∈ g0.columns)
    (hunion : reduceUnion (tagAll nm (kl0 :: klrest) (g0 :: grest)) = .ok out) :
    out.colValues c = ((g0 :: grest).map (fun g => g.colValues c)).flatten := by
  have hu : List.foldlM unionByName (tagFrame g0 nm kl0) (tagAll nm klrest grest) =
      .ok out := hunion
  have hfold := reduceUnion_fold_ok (tagAll nm klrest grest) (tagFrame g0 nm kl0) out hu
  have hct : c ∈ (tagFrame g0 nm kl0).columns := by
    rw [tagFrame_columns g0 nm kl0 hnmlen]
    exact List.mem_append.2 (Or.inr hcg)
  rw [hfold.2.1 c hct, tagFrame_colValues g0 nm kl0 hc,
    tagAll_map_eq nm klrest grest hlen (fun g => g.colValues c)
      (fun f kl => tagFrame_colValues f nm kl hc),
    show ((g0 :: grest).map (fun g => g.colValues c)) =
      g0.colValues c :: grest.map (fun g => g.colValues c) from rfl,
    List.flatten_cons]

/-- Names of the tag block of a tagged frame. -/
theorem tag_block_names (nm kl0 : List String) (hnmlen : nm.length = kl0.length) :
    ((nm.zip kl0).map (fun np => (np.1, "string"))).map Prod.fst = nm := by
  rw [List.map_map,
    show (Prod.fst ∘ fun np : String × String => (np.1, "string")) = Prod.fst from rfl,
    List.map_fst_zip nm kl0 (le_of_eq hnmlen)]

/-- Transposing a pointwise relation between two lists. -/
theorem forall₂_transpose {α β : Type} {R : α → β → Prop} {S : β → α → Prop}
    (h : ∀ a b, R a b → S b a) :
    ∀ {l : List α} {l' : List β}, List.Forall₂ R l l' → List.Forall₂ S l' l := by
  intro l l' hf
  induction hf with
  | nil => exact List.Forall₂.nil
  | cons hr hrest ih => exact List.Forall₂.cons (h _ _ hr) ih

/-- A pair observed in the schema set contributes its dtype to
`_get_column_types` for its name. -/
theorem mem_getColumnTypes {order : List (String × String)} {c x : String}
    (h : (c, x) ∈ order) : x ∈ getColumnTypes order c := by
  unfold getColumnTypes
  exact List.mem_map_of_mem Prod.snd (List.mem_filter.2 ⟨h, by simp⟩)

/-- Conversely, every dtype reported by `_get_column_types` comes from a
pair of the schema set. -/
theorem getColumnTypes_mem {order : List (String × String)} {c x : String}
    (h : x ∈ getColumnTypes order c) : (c, x) ∈ order := by
  unfold getColumnTypes at h
  obtain ⟨p, hp, hpx⟩ := List.mem_map.1 h
  have hpf := List.mem_filter.1 hp
  have hpc : p.1 = c := by simpa using hpf.2
  have hmem : (p.1, p.2) ∈ order := hpf.1
  rw [hpc, hpx] at hmem
  exact hmem

/-- A declared dtype corresponds to an actual schema pair. -/
theorem dtypeOf_mem_of_eq_some : ∀ (xs : List (String × String)) (c d : String),
    dtypeOf xs c = some d → (c, d) ∈ xs
  | [], c, d, h => by simp [dtypeOf] at h
  | (n, dd) :: xs, c, d, h => by
    rw [dtypeOf] at h
    by_cases hn : n = c
    · rw [if_pos hn] at h
      injection h with h
      subst hn
      subst h
      exact List.mem_cons_self _ _
    · rw [if_neg hn] at h
      exact List.mem_cons_of_mem _ (dtypeOf_mem_of_eq_some xs c d h)

/-- `_ensure_consistent_schema` leaves a column's values untouched when
every resolution step for that column returns the dtype the frame already
declares (the no-op-cast case). -/
theorem ensure_ok_colValues_keep {f g : Frame} {order : List (String × String)}
    {c dc : String} (hWF : f.WF) (hd : dtypeOf f.cols c = some dc)
    (hsteps : ∀ d ∈ getColumnTypes order c, stepResolve order c d = .ok dc)
    (h : ensureConsistentSchema f order = .ok g) :
    g.colValues c = f.colValues c := by
  refine ensureLoop_ok_colValues_keep order c dc
    (order.filter (fun p => !(f.cols.contains p))) f g h (RowsWF_of_WF hWF) ?_ ?_
  · intro d' hd'
    exact hsteps d' (mem_getColumnTypes ((mem_diff_iff order f (c, d')).1 hd').1)
  · exact colValues_hasType hWF hd

/-- A column absent from the frame comes out of
`_ensure_consistent_schema` as a column of nulls, one per original row. -/
theorem ensure_ok_colValues_null {f g : Frame} {order : List (String × String)}
    {c : String} (hWF : RowsWF f) (hcf : c ∉ f.columns)
    (h : ensureConsistentSchema f order = .ok g) :
    g.colValues c = List.replicate f.rows.length .null := by
  refine ensureLoop_ok_colValues_null order c
    (order.filter (fun p => !(f.cols.contains p))) f g h hWF ?_
  unfold Frame.colValues
  calc f.rows.map (fun r => rowValue f.cols r c)
      = f.rows.map (fun _ => Value.null) :=
        List.map_eq_map_iff.mpr (fun r _ => rowValue_not_mem f.cols r c hcf)
    _ = List.replicate f.rows.length Value.null := List.map_const f.rows Value.null

/-- After a successful `_ensure_consistent_schema`, every column of the
schema set carries the dtype `specResolved` predicts. -/
theorem ensure_ok_dtypeOf {f g : Frame} {order : List (String × String)} {c : String}
    (hord : order.Nodup) (hnd : (f.cols.map Prod.fst).Nodup)
    (hsub : ∀ p ∈ f.cols, p ∈ order)
    (hcn : c ∈ order.map Prod.fst)
    (h : ensureConsistentSchema f order = .ok g) :
    ∃ t, dtypeOf g.cols c = some t ∧ specResolved order c = some t := by
  by_cases hl : 1 < (getColumnTypes order c).length
  · have hdp : ∃ d', (c, d') ∈ order.filter (fun p => !(f.cols.contains p)) := by
      obtain ⟨p₁, p₂, h₁, h₂, hc₁, hc₂, hne⟩ := two_pairs_of_conflict hord hl
      by_cases hm₁ : p₁ ∈ f.cols
      · by_cases hm₂ : p₂ ∈ f.cols
        · exfalso
          obtain ⟨n₁, d₁⟩ := p₁
          obtain ⟨n₂, d₂⟩ := p₂
          have hc₁' : n₁ = c := hc₁
          have hc₂' : n₂ = c := hc₂
          have hdq : d₁ = d₂ :=
            nodup_keys_eq f.cols hnd c d₁ d₂ (hc₁' ▸ hm₁) (hc₂' ▸ hm₂)
          exact hne (by rw [Prod.mk.injEq]; exact ⟨hc₁'.trans hc₂'.symm, hdq⟩)
        · refine ⟨p₂.2, (mem_diff_iff order f (c, p₂.2)).2 ⟨?_, ?_⟩⟩
          · rw [← hc₂]
            exact h₂
          · rw [← hc₂]
            exact hm₂
      · refine ⟨p₁.2, (mem_diff_iff order f (c, p₁.2)).2 ⟨?_, ?_⟩⟩
        · rw [← hc₁]
          exact h₁
        · rw [← hc₁]
          exact hm₁
    obtain ⟨d', hd'⟩ := hdp
    obtain ⟨t0, hstep0⟩ := ensureLoop_ok_step order
      (order.filter (fun p => !(f.cols.contains p))) f g h (c, d') hd'
    have hres : resolveDtype c (getColumnTypes order c) = .ok t0 := by
      have hs : stepResolve order c d' = .ok t0 := hstep0
      simp only [stepResolve] at hs
      rw [if_pos hl] at hs
      exact hs
    have hspec : specResolved order c = some t0 := by
      simp only [specResolved]
      rw [if_pos hl, hres]
    have hsteps : ∀ d'', (c, d'') ∈ order.filter (fun p => !(f.cols.contains p)) →
        stepResolve order c d'' = .ok t0 := by
      intro d'' _
      simp only [stepResolve]
      rw [if_pos hl]
      exact hres
    exact ⟨t0, ensureLoop_ok_dtypeOf order c t0
      (order.filter (fun p => !(f.cols.contains p))) f g h hsteps (Or.inr ⟨d', hd'⟩), hspec⟩
  · obtain ⟨p, hpo, hpc⟩ := List.mem_map.1 hcn
    have hpts : p.2 ∈ getColumnTypes order c := by
      refine mem_getColumnTypes ?_
      rw [← hpc]
      exact hpo
    obtain ⟨d, hdts⟩ : ∃ d, getColumnTypes order c = [d] := by
      cases hts0 : getColumnTypes order c with
      | nil =>
        rw [hts0] at hpts
        simp at hpts
      | cons a tl =>
        cases tl with
        | nil => exact ⟨a, rfl⟩
        | cons b tl2 =>
          exfalso
          rw [hts0] at hl
          exact hl (by simp only [List.length_cons]; omega)
    have hspec : specResolved order c = some d := by
      simp only [specResolved]
      rw [if_neg hl, hdts]
      rfl
    by_cases hcf : c ∈ f.cols.map Prod.fst
    · obtain ⟨df, hdf, hdmem⟩ := dtypeOf_mem f.cols c hcf
      have hdfo : (c, df) ∈ order := hsub _ hdmem
      have hdts' : df ∈ getColumnTypes order c := mem_getColumnTypes hdfo
      have hdfd : df = d := by
        rw [hdts] at hdts'
        simpa using hdts'
      rw [← hdfd] at hspec
      have hsteps : ∀ d'', (c, d'') ∈ order.filter (fun p => !(f.cols.contains p)) →
          stepResolve order c d'' = .ok df := by
        intro d'' hd''
        exfalso
        have hdo := (mem_diff_iff order f (c, d'')).1 hd''
        have hmemts : d'' ∈ getColumnTypes order c := mem_getColumnTypes hdo.1
        have hdd : d'' = d := by
          rw [hdts] at hmemts
          simpa using hmemts
        have hdd' : df = d'' := hdfd.trans hdd.symm
        exact hdo.2 (hdd' ▸ hdmem)
      exact ⟨df, ensureLoop_ok_dtypeOf order c df
        (order.filter (fun p => !(f.cols.contains p))) f g h hsteps (Or.inl hdf), hspec⟩
    · have hpf : (c, d) ∈ order := by
        refine getColumnTypes_mem ?_
        rw [hdts]
        exact List.mem_cons_self _ _
      have hdnot : (c, d) ∉ f.cols := fun hq => hcf (List.mem_map_of_mem Prod.fst hq)
      have hdiff : (c, d) ∈ order.filter (fun p => !(f.cols.contains p)) :=
        (mem_diff_iff order f (c, d)).2 ⟨hpf, hdnot⟩
      have hsteps : ∀ d'', (c, d'') ∈ order.filter (fun p => !(f.cols.contains p)) →
          stepResolve order c d'' = .ok d := by
        intro d'' hd''
        have hdo := (mem_diff_iff order f (c, d'')).1 hd''
        have hmemts : d'' ∈ getColumnTypes order c := mem_getColumnTypes hdo.1
        have hdd : d'' = d := by
          rw [hdts] at hmemts
          simpa using hmemts
        subst hdd
        simp only [stepResolve]
        rw [if_neg hl]
      exact ⟨d, ensureLoop_ok_dtypeOf order c d
        (order.filter (fun p => !(f.cols.contains p))) f g h hsteps (Or.inr ⟨d, hdiff⟩), hspec⟩

/-! ### Claim C4 -/

/-- C4 counterexample: with tables `(a:int)` and `(b:int, c:int)` and the
admissible set-iteration order `a, c, b` of the schema set, a successful
tagged `concat` puts the union-schema block of the output in the order
`a, c, b` — not the first-seen order `a, b, c` the spec asserts — because
the columns promoted onto each table follow the iteration order of the
Python set `col_schemas`, which is unspecified. -/
theorem c4_counterexample :
    concat (.seq ([cadvA, cadvB].map Elem.df))
        (Option.some [PyKey.multi ["x"], PyKey.multi ["y"]]) (PyNames.list ["src"])
        cadvOrder = .ok cadvOut ∧
    IsSetOrder cadvOrder [cadvA, cadvB] ∧
    cadvOut.columns = ["src", "a", "c", "b"] ∧
    cadvOut.columns ≠ ["src", "a", "b", "c"] :=
  ⟨by decide, by decide, by decide, by decide⟩

/-- C4 (amended): for every successful tagged call on a batch of
well-formed tables, the output's columns are the tag columns in caller
order, then the first table's columns in their original relative order,
then the columns promoted in from the rest of the batch (in set-iteration
order, which is not in general first-seen order — see
`c4_counterexample`); and the output's column-name set is exactly the tag
names together with every original column name, so none is omitted. -/
theorem c4_output_columns :
    ∀ (f0 : Frame) (rest : List Frame) (ks : List PyKey) (nm : List String)
      (order : List (String × String)) (out : Frame),
    (∀ f ∈ f0 :: rest, f.WF) → IsSetOrder order (f0 :: rest) → nm ≠ [] →
    concat (.seq ((f0 :: rest).map Elem.df)) (Option.some ks) (PyNames.list nm) order =
      .ok out →
    (∃ extra, out.columns = nm ++ f0.columns ++ extra) ∧
    (∀ n, n ∈ out.columns ↔ (n ∈ nm ∨ ∃ f ∈ f0 :: rest, n ∈ f.columns)) := by
  intro f0 rest ks nm order out hWF ho hnm hok
  obtain ⟨framesR, kl0, klrest, hrel, hkl, hnmlen, hkllen, hunion⟩ :=
    concat_tags_ok_scaffold f0 rest ks nm order out hnm hok
  rcases hrel with ⟨hb, rfl⟩ | ⟨hb, hfa⟩
  · have hcols := tagged_union_cols nm kl0 klrest f0 rest out hunion
    have hocols : out.columns = nm ++ f0.columns := by
      show out.cols.map Prod.fst = nm ++ f0.columns
      rw [hcols, List.map_append, tag_block_names nm kl0 hnmlen]
      rfl
    refine ⟨⟨[], by rw [List.append_nil]; exact hocols⟩, ?_⟩
    intro n
    rw [hocols, List.mem_append]
    constructor
    · rintro (hn | hn)
      · exact Or.inl hn
      · exact Or.inr ⟨f0, List.mem_cons_self _ _, hn⟩
    · rintro (hn | ⟨f, hf, hn⟩)
      · exact Or.inl hn
      · refine Or.inr ?_
        have hss := (compareSchemas_cons f0 rest).1 hb f hf
        obtain ⟨p, hp, rfl⟩ := List.mem_map.1 hn
        exact List.mem_map_of_mem Prod.fst ((sameSchemaSet_iff.1 hss).1 p hp)
  · obtain ⟨g0, grest, hg0, hgrest, rfl⟩ := List.forall₂_cons_left_iff.1 hfa
    have hcols := tagged_union_cols nm kl0 klrest g0 grest out hunion
    have hocols : out.columns = nm ++ g0.columns := by
      show out.cols.map Prod.fst = nm ++ g0.columns
      rw [hcols, List.map_append, tag_block_names nm kl0 hnmlen]
      rfl
    obtain ⟨extra, hge, hextramem⟩ := ensureLoop_ok_columns order
      (order.filter (fun p => !(f0.cols.contains p))) f0 g0 hg0
    have hm0 : ∀ m, m ∈ g0.columns ↔ m ∈ order.map Prod.fst :=
      ensure_ok_mem_order (ho.2.2 f0 (List.mem_cons_self _ _)) hg0
    refine ⟨⟨extra, by rw [hocols, hge, List.append_assoc]⟩, ?_⟩
    intro n
    rw [hocols, List.mem_append]
    constructor
    · rintro (hn | hn)
      · exact Or.inl hn
      · refine Or.inr ?_
        have hno := (hm0 n).1 hn
        obtain ⟨p, hp, rfl⟩ := List.mem_map.1 hno
        obtain ⟨f, hf, hpf⟩ := ho.2.1 p hp
        exact ⟨f, hf, List.mem_map_of_mem Prod.fst hpf⟩
    · rintro (hn | ⟨f, hf, hn⟩)
      · exact Or.inl hn
      · refine Or.inr ((hm0 n).2 ?_)
        obtain ⟨p, hp, rfl⟩ := List.mem_map.1 hn
        exact List.mem_map_of_mem Prod.fst (ho.2.2 f hf p hp)

theorem c4_output_columns_witness :
    concat (.seq ((wfA :: [wfB]).map Elem.df))
        (Option.some [PyKey.scalar "scanner", PyKey.scalar "web"])
        (PyNames.list ["source"]) wOrder = .ok wOut ∧
    (∃ extra, wOut.columns = ["source"] ++ wfA.columns ++ extra) ∧
    (∀ n, n ∈ wOut.columns ↔
      (n ∈ (["source"] : List String) ∨ ∃ f ∈ wfA :: [wfB], n ∈ f.columns)) := by
  have h := c4_output_columns wfA [wfB] [PyKey.scalar "scanner", PyKey.scalar "web"]
    ["source"] wOrder wOut (by decide) (by decide) (by decide) (by decide)
  exact ⟨by decide, h.1, h.2⟩

/-! ### Claim C5 -/

/-- C5: for every successful tagged call, every input table `fi` (at
position `i`) and every column name `c` of the union schema absent from
`fi`, the slice of the output column `c` contributed by `fi` — the
`row_count(fi)` rows starting after the rows of the earlier tables — is
exactly `row_count(fi)` nulls; the output declares `c` at the resolved
dtype (`specResolved`); and no column of the union schema is dropped from
the output. -/
theorem c5_null_fill :
    ∀ (f0 : Frame) (rest : List Frame) (i : Nat) (fi : Frame) (ks : List PyKey)
      (nm : List String) (order : List (String × String)) (out : Frame) (c : String),
    (∀ f ∈ f0 :: rest, f.WF) → IsSetOrder order (f0 :: rest) → nm ≠ [] →
    (f0 :: rest)[i]? = some fi →
    c ∉ nm → c ∈ order.map Prod.fst → c ∉ fi.columns →
    concat (.seq ((f0 :: rest).map Elem.df)) (Option.some ks) (PyNames.list nm) order =
      .ok out →
    ((out.colValues c).drop ((((f0 :: rest).take i).map (fun f => f.rows.length)).sum)).take
        fi.rows.length = List.replicate fi.rows.length Value.null ∧
    (∃ t, dtypeOf out.cols c = some t ∧ specResolved order c = some t) ∧
    (∀ n ∈ order.map Prod.fst, n ∈ out.columns) := by
  intro f0 rest i fi ks nm order out c hWF ho hnm hgeti hcnm hcord hcfi hok
  obtain ⟨framesR, kl0, klrest, hrel, hkl, hnmlen, hkllen, hunion⟩ :=
    concat_tags_ok_scaffold f0 rest ks nm order out hnm hok
  have hfimem : fi ∈ f0 :: rest := List.getElem?_mem hgeti
  have hslow : compareSchemas (f0 :: rest) = false := by
    rw [Bool.eq_false_iff]
    intro htrue
    have hall := (compareSchemas_cons f0 rest).1 htrue
    obtain ⟨p, hpo, hpc⟩ := List.mem_map.1 hcord
    obtain ⟨f, hf, hpf⟩ := ho.2.1 p hpo
    have h1 : p ∈ f0.cols := (sameSchemaSet_iff.1 (hall f hf)).1 p hpf
    have h2 : p ∈ fi.cols := (sameSchemaSet_iff.1 (hall fi hfimem)).2 p h1
    refine hcfi ?_
    rw [← hpc]
    exact List.mem_map_of_mem Prod.fst h2
  rcases hrel with ⟨hb, _⟩ | ⟨_, hfa⟩
  · rw [hslow] at hb
    exact Bool.noConfusion hb
  · obtain ⟨g0, grest, hg0, hgrest, rfl⟩ := List.forall₂_cons_left_iff.1 hfa
    have hlenr : grest.length ≤ klrest.length := by
      simp only [List.length_cons] at hkllen
      omega
    obtain ⟨gi, hgeti', hgi⟩ := forall₂_getElem? hfa hgeti
    have hcg0 : c ∈ g0.columns :=
      (ensure_ok_mem_order (ho.2.2 f0 (List.mem_cons_self _ _)) hg0 c).2 hcord
    have hcv := tagged_union_colValues nm kl0 klrest g0 grest out c hlenr hnmlen hcnm
      hcg0 hunion
    have hcols := tagged_union_cols nm kl0 klrest g0 grest out hunion
    have hfa' := forall₂_transpose (fun f g hfg =>
      (colValues_length g c).trans (ensureLoop_ok_rows_length order _ f g hfg)) hfa
    refine ⟨?_, ?_, ?_⟩
    · have hLi : ((g0 :: grest).map (fun g => g.colValues c))[i]? =
          some (gi.colValues c) := by
        rw [List.getElem?_map, hgeti']
        rfl
      have hseg := flatten_segment ((g0 :: grest).map (fun g => g.colValues c)) i
        (gi.colValues c) hLi
      have hnull : gi.colValues c = List.replicate fi.rows.length Value.null :=
        ensure_ok_colValues_null (RowsWF_of_WF (hWF fi hfimem)) hcfi hgi
      have hlens : ((g0 :: grest).map (fun g => g.colValues c)).map List.length =
          (f0 :: rest).map (fun f => f.rows.length) := by
        rw [List.map_map]
        exact forall₂_map_eq hfa'
      have hoff : ((((g0 :: grest).map (fun g => g.colValues c)).take i).map
          List.length).sum = (((f0 :: rest).take i).map (fun f => f.rows.length)).sum := by
        rw [List.map_take, hlens, ← List.map_take]
      have hlen_gi : (gi.colValues c).length = fi.rows.length := by
        rw [colValues_length, ensureLoop_ok_rows_length order _ fi gi hgi]
      rw [hcv, ← hoff, ← hlen_gi, hseg, hnull]
      simp
    · obtain ⟨t, hgt, hst⟩ := ensure_ok_dtypeOf ho.1
        (hWF f0 (List.mem_cons_self _ _)).1 (ho.2.2 f0 (List.mem_cons_self _ _)) hcord hg0
      refine ⟨t, ?_, hst⟩
      have hnb : c ∉ ((nm.zip kl0).map (fun np => (np.1, "string"))).map Prod.fst := by
        rw [tag_block_names nm kl0 hnmlen]
        exact hcnm
      rw [hcols, dtypeOf_append_of_not_mem _ _ _ hnb]
      exact hgt
    · intro n hn
      have hcolseq : out.columns = nm ++ g0.columns := by
        show out.cols.map Prod.fst = nm ++ g0.columns
        rw [hcols, List.map_append, tag_block_names nm kl0 hnmlen]
        rfl
      rw [hcolseq]
      exact List.mem_append.2 (Or.inr
        ((ensure_ok_mem_order (ho.2.2 f0 (List.mem_cons_self _ _)) hg0 n).2 hn))

theorem c5_null_fill_witness :
    concat (.seq ((wfA :: [wfB]).map Elem.df))
        (Option.some [PyKey.scalar "scanner", PyKey.scalar "web"])
        (PyNames.list ["source"]) wOrder = .ok wOut ∧
    ((wOut.colValues "name").drop
        ((((wfA :: [wfB]).take 1).map (fun f => f.rows.length)).sum)).take
      wfB.rows.length = List.replicate wfB.rows.length Value.null ∧
    (∃ t, dtypeOf wOut.cols "name" = some t ∧ specResolved wOrder "name" = some t) ∧
    (∀ n ∈ wOrder.map Prod.fst, n ∈ wOut.columns) := by
  have h := c5_null_fill wfA [wfB] 1 wfB [PyKey.scalar "scanner", PyKey.scalar "web"]
    ["source"] wOrder wOut "name" (by decide) (by decide) (by decide) (by decide)
    (by decide) (by decide) (by decide) (by decide)
  exact ⟨by decide, h.1, h.2.1, h.2.2⟩

/-! ### Claim C6 -/

/-- C6: for every successful tagged call, the output's row count is the
sum of the per-table row counts (rows are concatenated in input-table
order), and for every input table `fi` (at position `i`) and every
original column `c` of `fi` whose resolution is a no-op (every resolution
step for `c` returns the dtype `fi` already declares), the slice of the
output column `c` contributed by `fi` is exactly `fi`'s original values
in original row order. -/
theorem c6_no_silent_loss :
    ∀ (f0 : Frame) (rest : List Frame) (i : Nat) (fi : Frame) (ks : List PyKey)
      (nm : List String) (order : List (String × String)) (out : Frame) (c dc : String),
    (∀ f ∈ f0 :: rest, f.WF) → IsSetOrder order (f0 :: rest) → nm ≠ [] →
    (f0 :: rest)[i]? = some fi →
    c ∉ nm → dtypeOf fi.cols c = some dc →
    (∀ d ∈ getColumnTypes order c, stepResolve order c d = .ok dc) →
    concat (.seq ((f0 :: rest).map Elem.df)) (Option.some ks) (PyNames.list nm) order =
      .ok out →
    out.rows.length = ((f0 :: rest).map (fun f => f.rows.length)).sum ∧
    ((out.colValues c).drop ((((f0 :: rest).take i).map (fun f => f.rows.length)).sum)).take
        fi.rows.length = fi.colValues c := by
  intro f0 rest i fi ks nm order out c dc hWF ho hnm hgeti hcnm hdfi hnoop hok
  obtain ⟨framesR, kl0, klrest, hrel, hkl, hnmlen, hkllen, hunion⟩ :=
    concat_tags_ok_scaffold f0 rest ks nm order out hnm hok
  have hfimem : fi ∈ f0 :: rest := List.getElem?_mem hgeti
  rcases hrel with ⟨hb, rfl⟩ | ⟨hb, hfa⟩
  · have hss := (compareSchemas_cons f0 rest).1 hb fi hfimem
    have hcg0 : c ∈ f0.columns :=
      List.mem_map_of_mem Prod.fst
        ((sameSchemaSet_iff.1 hss).1 (c, dc) (dtypeOf_mem_of_eq_some fi.cols c dc hdfi))
    have hlenr : rest.length ≤ klrest.length := by
      simp only [List.length_cons] at hkllen
      omega
    have hcv := tagged_union_colValues nm kl0 klrest f0 rest out c hlenr hnmlen hcnm
      hcg0 hunion
    have hrows := tagged_union_rows_length nm kl0 klrest f0 rest out hlenr hunion
    refine ⟨hrows, ?_⟩
    have hLi : ((f0 :: rest).map (fun g => g.colValues c))[i]? =
        some (fi.colValues c) := by
      rw [List.getElem?_map, hgeti]
      rfl
    have hseg := flatten_segment ((f0 :: rest).map (fun g => g.colValues c)) i
      (fi.colValues c) hLi
    have hlens : ((f0 :: rest).map (fun g => g.colValues c)).map List.length =
        (f0 :: rest).map (fun f => f.rows.length) := by
      rw [List.map_map]
      refine List.map_eq_map_iff.mpr (fun f _ => ?_)
      exact colValues_length f c
    have hoff : ((((f0 :: rest).map (fun g => g.colValues c)).take i).map
        List.length).sum = (((f0 :: rest).take i).map (fun f => f.rows.length)).sum := by
      rw [List.map_take, hlens, ← List.map_take]
    have hlen_fi : (fi.colValues c).length = fi.rows.length := colValues_length fi c
    rw [hcv, ← hoff, ← hlen_fi, hseg]
  · obtain ⟨g0, grest, hg0, hgrest, rfl⟩ := List.forall₂_cons_left_iff.1 hfa
    obtain ⟨gi, hgeti', hgi⟩ := forall₂_getElem? hfa hgeti
    have hcord : c ∈ order.map Prod.fst :=
      List.mem_map_of_mem Prod.fst
        (ho.2.2 fi hfimem (c, dc) (dtypeOf_mem_of_eq_some fi.cols c dc hdfi))
    have hcg0 : c ∈ g0.columns :=
      (ensure_ok_mem_order (ho.2.2 f0 (List.mem_cons_self _ _)) hg0 c).2 hcord
    have hlenr : grest.length ≤ klrest.length := by
      simp only [List.length_cons] at hkllen
      omega
    have hcv := tagged_union_colValues nm kl0 klrest g0 grest out c hlenr hnmlen hcnm
      hcg0 hunion
    have hrowsU := tagged_union_rows_length nm kl0 klrest g0 grest out hlenr hunion
    have hfa' := forall₂_transpose (fun f g hfg =>
      (colValues_length g c).trans (ensureLoop_ok_rows_length order _ f g hfg)) hfa
    refine ⟨?_, ?_⟩
    · rw [hrowsU]
      have hlr := forall₂_transpose (fun f g hfg =>
        (ensureLoop_ok_rows_length order _ f g hfg :
          g.rows.length = f.rows.length)) hfa
      rw [forall₂_map_eq hlr]
    · have hkeep : gi.colValues c = fi.colValues c :=
        ensure_ok_colValues_keep (hWF fi hfimem) hdfi hnoop hgi
      have hLi : ((g0 :: grest).map (fun g => g.colValues c))[i]? =
          some (gi.colValues c) := by
        rw [List.getElem?_map, hgeti']
        rfl
      have hseg := flatten_segment ((g0 :: grest).map (fun g => g.colValues c)) i
        (gi.colValues c) hLi
      have hlens : ((g0 :: grest).map (fun g => g.colValues c)).map List.length =
          (f0 :: rest).map (fun f => f.rows.length) := by
        rw [List.map_map]
        exact forall₂_map_eq hfa'
      have hoff : ((((g0 :: grest).map (fun g => g.colValues c)).take i).map
          List.length).sum = (((f0 :: rest).take i).map (fun f => f.rows.length)).sum := by
        rw [List.map_take, hlens, ← List.map_take]
      have hlen_gi : (gi.colValues c).length = fi.rows.length := by
        rw [hkeep]
        exact colValues_length fi c
      rw [hcv, ← hoff, ← hlen_gi, hseg, hkeep]

theorem c6_no_silent_loss_witness :
    concat (.seq ((wfA :: [wfB]).map Elem.df))
        (Option.some [PyKey.scalar "scanner", PyKey.scalar "web"])
        (PyNames.list ["source"]) wOrder = .ok wOut ∧
    wOut.rows.length = ((wfA :: [wfB]).map (fun f => f.rows.length)).sum ∧
    ((wOut.colValues "city").drop
        ((((wfA :: [wfB]).take 1).map (fun f => f.rows.length)).sum)).take
      wfB.rows.length = wfB.colValues "city" := by
  have h := c6_no_silent_loss wfA [wfB] 1 wfB
    [PyKey.scalar "scanner", PyKey.scalar "web"] ["source"] wOrder wOut "city" "string"
    (by decide) (by decide) (by decide) (by decide) (by decide) (by decide) (by decide)
    (by decide)
  exact ⟨by decide, h.1, h.2⟩
